import Mathlib

/-
  Verification of the aether-onramp CI configuration script
  (.github/scripts/update-aether-files.py).

  The development shallowly embeds the template-safe structured-config
  merge core of the script: the placeholder codec
  (replace_aether_templates_with_placeholders / restore_aether_templates),
  the recursive dict merge (deep_merge_dict), the section enabler
  (get_enabled_sections), the chart introspector (find_single_directory),
  the override builder (build_image_overrides) and the orchestrator
  (configure_sdcore_images).

  Strings are modelled as lists of characters where convenient.  Functions
  that the Python source writes with non-structural recursion are embedded
  with an explicit fuel argument (always called with enough fuel, as the
  adequacy lemmas below prove); this keeps every definition computable by
  kernel reduction.  Python sys.exit / uncaught exceptions are modelled as
  Except.error / Option.none results.
-/

/-! ## The placeholder codec -/

/-- The fixed marker prefix of every generated placeholder token. -/
def marker : List Char := "AETHER_PLACEHOLDER_".data

/-- One decimal digit character, embedding Python's rendering of a digit. -/
def digitCharOf : Nat → Char
  | 0 => '0' | 1 => '1' | 2 => '2' | 3 => '3' | 4 => '4'
  | 5 => '5' | 6 => '6' | 7 => '7' | 8 => '8' | _ => '9'

/-- Fuelled accumulator loop of decimal rendering (fuel bounds the number of
digits; any fuel larger than `n` is enough). -/
def natToDecAux : Nat → Nat → List Char → List Char
  | 0, _, acc => acc
  | fuel + 1, n, acc =>
    if n = 0 then acc else natToDecAux fuel (n / 10) (digitCharOf (n % 10) :: acc)

/-- Decimal rendering of a natural number, embedding Python `str(int)` for
the placeholder indices. -/
def natToDec (n : Nat) : List Char :=
  if n = 0 then ['0'] else natToDecAux (n + 1) n []

/-- The digit list of a positive number (empty for zero); `natToDec`
agrees with it on positive input. -/
def digitsOf (n : Nat) : List Char := natToDecAux (n + 1) n []

/-- Decimal evaluation of a digit list, left to right, from an
accumulator; used to invert `natToDec`. -/
def decValFrom (a : Nat) : List Char → Nat
  | [] => a
  | c :: r => decValFrom (a * 10 + (c.toNat - 48)) r

/-- The placeholder name `AETHER_PLACEHOLDER_<i>` as a string. -/
def phNameStr (i : Nat) : String := String.mk (marker ++ natToDec i)

/-- The quoted placeholder token `"AETHER_PLACEHOLDER_<i>"` as inserted in
the protected text. -/
def qtok (i : Nat) : List Char := '"' :: ((marker ++ natToDec i) ++ ['"'])

/-- The character class `[^}]` of the template pattern. -/
def notBrace (c : Char) : Bool := c ≠ '}'

/-- Fuelled scanner of `re.sub(r'\{\{[^}]+\}\}', ...)`: finds each
non-overlapping leftmost match of two braces, one or more non-`}`
characters and two closing braces, replaces it by the quoted placeholder
and records the original template text.  The fuel only bounds recursion
depth; `protectAux (s.length + 1) s i` is the real function. -/
def protectAux : Nat → List Char → Nat → List Char × List (String × String)
  | 0, s, _ => (s, [])
  | fuel + 1, s, i =>
    match s with
    | [] => ([], [])
    | '{' :: '{' :: rest =>
      match rest.takeWhile notBrace, rest.dropWhile notBrace with
      | b :: bs, '}' :: '}' :: rest2 =>
        let tmpl : List Char := '{' :: '{' :: ((b :: bs) ++ ['}', '}'])
        let ph := phNameStr i
        let pr := protectAux fuel rest2 (i + 1)
        ('"' :: (ph.data ++ ('"' :: pr.1)), (ph, String.mk tmpl) :: pr.2)
      | _, _ =>
        let pr := protectAux fuel ('{' :: rest) i
        ('{' :: pr.1, pr.2)
    | c :: rest =>
      let pr := protectAux fuel rest i
      (c :: pr.1, pr.2)

/-- Embedding of `replace_aether_templates_with_placeholders`: returns the
protected text and the placeholder table (in insertion order, which is the
order of the dict in the source). -/
def replace_aether_templates_with_placeholders (content : String) :
    String × List (String × String) :=
  let pr := protectAux (content.data.length + 1) content.data 0
  (String.mk pr.1, pr.2)

/-- Fuelled counter with the same scanning structure as `protectAux`:
the number of regex matches of the template pattern in the text. -/
def countTplAux : Nat → List Char → Nat
  | 0, _ => 0
  | fuel + 1, s =>
    match s with
    | [] => 0
    | '{' :: '{' :: rest =>
      match rest.takeWhile notBrace, rest.dropWhile notBrace with
      | _ :: _, '}' :: '}' :: rest2 => countTplAux fuel rest2 + 1
      | _, _ => countTplAux fuel ('{' :: rest)
    | _ :: rest => countTplAux fuel rest

/-- The number of `\{\{[^}]+\}\}` template expressions in a text. -/
def countTemplates (content : String) : Nat :=
  countTplAux (content.data.length + 1) content.data

/-- Fuelled embedding of Python `str.replace` (all non-overlapping
occurrences, scanned left to right).  The placeholder patterns of this
program are never empty, so the empty-pattern corner of Python `replace`
is irrelevant and the empty pattern is treated as matching nothing. -/
def pyReplaceF : Nat → List Char → List Char → List Char → List Char
  | 0, _, _, s => s
  | fuel + 1, pat, repl, s =>
    match s with
    | [] => []
    | c :: rest =>
      if pat ≠ [] ∧ pat.isPrefixOf (c :: rest) then
        repl ++ pyReplaceF fuel pat repl ((c :: rest).drop pat.length)
      else
        c :: pyReplaceF fuel pat repl rest

/-- Python `content.replace(pat, repl)` on character lists. -/
def pyReplace (pat repl s : List Char) : List Char :=
  pyReplaceF (s.length + 1) pat repl s

/-- Python's substring containment `pat in s` on character lists. -/
def subList (pat : List Char) : List Char → Bool
  | [] => pat.isEmpty
  | c :: rest => pat.isPrefixOf (c :: rest) || subList pat rest

/-- Stable insertion of one table entry into a list sorted by key length,
longest first (entries with equal key length keep their relative order,
as Python's stable `sorted(..., key=len, reverse=True)` does). -/
def insertByLen (x : String × String) : List (String × String) → List (String × String)
  | [] => [x]
  | y :: ys => if y.1.length ≤ x.1.length then x :: y :: ys else y :: insertByLen x ys

/-- Stable sort of the placeholder table by placeholder length, longest
first, embedding `sorted(templates.keys(), key=len, reverse=True)`. -/
def sortByLenDesc : List (String × String) → List (String × String)
  | [] => []
  | x :: xs => insertByLen x (sortByLenDesc xs)

/-- One iteration of the restoration loop: try the quoted token first,
then the bare token, replace all occurrences of whichever is found and
count the placeholder as restored; otherwise leave the text unchanged. -/
def restoreStep (st : List Char × Nat) (pt : String × String) : List Char × Nat :=
  let quoted : List Char := '"' :: (pt.1.data ++ ['"'])
  if subList quoted st.1 then (pyReplace quoted pt.2.data st.1, st.2 + 1)
  else if subList pt.1.data st.1 then (pyReplace pt.1.data pt.2.data st.1, st.2 + 1)
  else st

/-- Embedding of `restore_aether_templates`.  `none` models the
`sys.exit(1)` taken when no placeholder was restored although the table
is non-empty. -/
def restore_aether_templates (content : String) (templates : List (String × String)) :
    Option String :=
  let res := (sortByLenDesc templates).foldl restoreStep (content.data, 0)
  if res.2 = 0 ∧ 0 < templates.length then none
  else some (String.mk res.1)

/-! ## Decomposition chains used to reason about the codec

A protected text is an alternation of clean pieces (no occurrence of the
marker) and segments, where a segment is either a still-protected quoted
token or an already-restored template text. -/

/-- A segment of a protected text: a still-protected quoted placeholder
token for index `i` (remembering the template text `t` it protects), or a
literal text block (an already-restored template). -/
inductive Seg where
  | tok (i : Nat) (t : List Char)
  | tmpl (t : List Char)

/-- The characters a segment contributes to the text. -/
def renderSeg : Seg → List Char
  | Seg.tok i _ => qtok i
  | Seg.tmpl t => t

/-- Assembles a leading piece and an alternating list of segments and
following pieces into one text. -/
def glueC : List Char → List (Seg × List Char) → List Char
  | p0, [] => p0
  | p0, (s, p) :: r => p0 ++ renderSeg s ++ glueC p r

/-- The indices of the still-protected tokens of a chain, in order. -/
def tokIdx : List (Seg × List Char) → List Nat
  | [] => []
  | (Seg.tok i _, _) :: r => i :: tokIdx r
  | _ :: r => tokIdx r

/-- The index/template pairs of the still-protected tokens, in order. -/
def toksOf : List (Seg × List Char) → List (Nat × List Char)
  | [] => []
  | (Seg.tok i t, _) :: r => (i, t) :: toksOf r
  | _ :: r => toksOf r

/-- The chain with every token restored to its template text. -/
def toTmpl : List (Seg × List Char) → List (Seg × List Char) :=
  List.map (fun sp =>
    match sp.1 with
    | Seg.tok _ t => (Seg.tmpl t, sp.2)
    | Seg.tmpl t => (Seg.tmpl t, sp.2))

/-- A text block is clean when the marker does not occur in it. -/
def CleanL (l : List Char) : Prop := ¬ marker <:+: l

/-- Well-formedness of one segment: the template text (stored or already
restored) is clean, non-empty, starts with `{` and ends with `}` (as every
`\{\{[^}]+\}\}` match does). -/
def segOK : Seg → Prop
  | Seg.tok _ t => CleanL t ∧ ∃ body, t = '{' :: (body ++ ['}'])
  | Seg.tmpl t => CleanL t ∧ ∃ body, t = '{' :: (body ++ ['}'])

/-! ## YAML documents and the merge engine -/

/-- The tree of YAML values the script manipulates: scalars, sequences and
insertion-ordered mappings with string keys. -/
inductive Yaml where
  | str (s : String)
  | int (n : Int)
  | bool (b : Bool)
  | null
  | seq (xs : List Yaml)
  | map (m : List (String × Yaml))

mutual
/-- Structural size of a YAML value, used as a fuel bound for the merge. -/
def ysize : Yaml → Nat
  | Yaml.map m => 1 + ydsize m
  | Yaml.seq xs => 1 + ylsize xs
  | _ => 1
/-- Structural size of a YAML sequence body. -/
def ylsize : List Yaml → Nat
  | [] => 0
  | v :: r => 1 + ysize v + ylsize r
/-- Structural size of a YAML mapping body. -/
def ydsize : List (String × Yaml) → Nat
  | [] => 0
  | p :: r => 1 + ysize p.2 + ydsize r
end

/-- Python dict lookup `m[k]` / `m.get(k)` on an insertion-ordered
association list. -/
def lookupKey : List (String × Yaml) → String → Option Yaml
  | [], _ => none
  | p :: r, k => if p.1 = k then some p.2 else lookupKey r k

/-- Python dict assignment `m[k] = v`: updates the existing entry in
place, or appends a new entry at the end. -/
def dictSet (m : List (String × Yaml)) (k : String) (v : Yaml) : List (String × Yaml) :=
  if m.any (fun p => p.1 = k) then m.map (fun p => if p.1 = k then (k, v) else p)
  else m ++ [(k, v)]

/-- The keys of a mapping in order. -/
def keysOf (m : List (String × Yaml)) : List String := m.map Prod.fst

/-- Key uniqueness of an association list (every Python dict has it). -/
def uniqB : List String → Bool
  | [] => true
  | k :: r => (!r.contains k) && uniqB r

mutual
/-- A YAML value is well formed when every mapping in it has unique keys,
as every value loaded from a Python dict does. -/
def wfY : Yaml → Bool
  | Yaml.map m => uniqB (keysOf m) && wfD m
  | Yaml.seq xs => wfL xs
  | _ => true
/-- Well-formedness of a sequence body. -/
def wfL : List Yaml → Bool
  | [] => true
  | v :: r => wfY v && wfL r
/-- Well-formedness of a mapping body. -/
def wfD : List (String × Yaml) → Bool
  | [] => true
  | p :: r => wfY p.2 && wfD r
end

/-- Python truthiness of a YAML value. -/
def pythonTruthy : Yaml → Bool
  | Yaml.str s => !s.isEmpty
  | Yaml.int n => n != 0
  | Yaml.bool b => b
  | Yaml.null => false
  | Yaml.seq xs => !xs.isEmpty
  | Yaml.map m => !m.isEmpty

/-- Fuelled embedding of `deep_merge_dict`: `result = base.copy()`, then
for each override entry, recurse when both sides hold a mapping at that
key and otherwise assign the override value.  The fuel only bounds the
recursion depth (the override size is enough, see the adequacy lemma). -/
def deep_merge_fuel : Nat → List (String × Yaml) → List (String × Yaml) → List (String × Yaml)
  | 0, base, _ => base
  | fuel + 1, base, override =>
    match override with
    | [] => base
    | (k, v) :: rest =>
      let newVal : Yaml :=
        match lookupKey base k, v with
        | some (Yaml.map bm), Yaml.map om => Yaml.map (deep_merge_fuel fuel bm om)
        | _, _ => v
      deep_merge_fuel fuel (dictSet base k newVal) rest

/-- Embedding of `deep_merge_dict`. -/
def deep_merge_dict (base override : List (String × Yaml)) : List (String × Yaml) :=
  deep_merge_fuel (ydsize override + 1) base override

/-- The value `deep_merge_dict` stores for one override entry, at a given
fuel: the recursive merge when both sides hold a mapping, the override
value otherwise. -/
def mergeValF (fuel : Nat) (bv : Option Yaml) (v : Yaml) : Yaml :=
  match bv, v with
  | some (Yaml.map bm), Yaml.map om => Yaml.map (deep_merge_fuel fuel bm om)
  | _, _ => v

/-- The value `deep_merge_dict` stores for one override entry. -/
def mergeVal (bv : Option Yaml) (v : Yaml) : Yaml :=
  match bv, v with
  | some (Yaml.map bm), Yaml.map om => Yaml.map (deep_merge_dict bm om)
  | _, _ => v

/-! ## Section enabler -/

/-- Whether an optional dict value is exactly the boolean `True`
(Python `... is True`). -/
def isTrueFlag : Option Yaml → Bool
  | some (Yaml.bool true) => true
  | _ => false

/-- The per-section test of `get_enabled_sections`: a mapping carrying
`enable`, `enable5G` or `enable4G` set to (exactly) boolean true. -/
def sectionEnabled : Yaml → Bool
  | Yaml.map m =>
    isTrueFlag (lookupKey m "enable") || isTrueFlag (lookupKey m "enable5G") ||
      isTrueFlag (lookupKey m "enable4G")
  | _ => false

/-- Embedding of `get_enabled_sections` on the parsed values document.
A falsy document yields no sections; a truthy non-mapping document makes
`values.items()` raise (modelled as an error). -/
def get_enabled_sections (values : Yaml) : Except Unit (List String) :=
  if pythonTruthy values then
    match values with
    | Yaml.map m =>
      Except.ok (m.foldl (fun acc p => if sectionEnabled p.2 then acc ++ [p.1] else acc) [])
    | _ => Except.error ()
  else Except.ok []

/-- The section inclusion test as the spec claim words it: any *truthy*
value under a recognized flag key.  Modelled from the spec claim for
comparison with the source's `is True` test. -/
def claimedTruthyFlag (m : List (String × Yaml)) (k : String) : Bool :=
  match lookupKey m k with
  | some v => pythonTruthy v
  | none => false

/-- Spec-side version of the per-section test of claim C3 ("a mapping
containing a truthy enable flag under one of the recognized key names"). -/
def claimedSectionEnabled : Yaml → Bool
  | Yaml.map m =>
    claimedTruthyFlag m "enable" || claimedTruthyFlag m "enable5G" ||
      claimedTruthyFlag m "enable4G"
  | _ => false

/-! ## Chart introspection and the override builder -/

/-- A directory of the pulled chart tree: its name, the parsed content of
its `values.yaml` if that file exists, and its subdirectories. -/
inductive ChartTree where
  | node (dirName : String) (valuesFile : Option Yaml) (children : List ChartTree)

/-- The directory's name. -/
def ChartTree.name : ChartTree → String
  | ChartTree.node n _ _ => n

/-- The parsed `values.yaml` of the directory, when the file exists. -/
def ChartTree.values : ChartTree → Option Yaml
  | ChartTree.node _ v _ => v

/-- The subdirectories. -/
def ChartTree.subdirs : ChartTree → List ChartTree
  | ChartTree.node _ _ c => c

mutual
/-- All strict descendants of a directory, as `Path.rglob` visits them. -/
def descendants : ChartTree → List ChartTree
  | ChartTree.node _ _ cs => descList cs
/-- All members of a directory list together with their descendants. -/
def descList : List ChartTree → List ChartTree
  | [] => []
  | t :: r => t :: (descendants t ++ descList r)
end

/-- Embedding of `find_single_directory`: the unique descendant directory
with the given name, `none` when there is none, and a fatal error
(`sys.exit(1)`) when the name is ambiguous. -/
def find_single_directory (base_dir : ChartTree) (name : String) :
    Except Unit (Option ChartTree) :=
  match (descendants base_dir).filter (fun d => d.name = name) with
  | [] => Except.ok none
  | [d] => Except.ok (some d)
  | _ => Except.error ()

/-- The section-directory resolution of `build_image_overrides`: the
primary lookup under the section name, with the `bess-upf` alias tried
exactly when the section is `omec-user-plane` and the primary lookup
found nothing. -/
def resolve_section_dir (chart_dir : ChartTree) (section_name : String) :
    Except Unit (Option ChartTree) :=
  match find_single_directory chart_dir section_name with
  | Except.error e => Except.error e
  | Except.ok (some d) => Except.ok (some d)
  | Except.ok none =>
    if section_name = "omec-user-plane" then find_single_directory chart_dir "bess-upf"
    else Except.ok none

/-- Python `d.get(k, default)`; a non-dict receiver raises (AttributeError),
modelled as an error. -/
def pyGet (v : Yaml) (k : String) (default : Yaml) : Except Unit Yaml :=
  match v with
  | Yaml.map m => Except.ok ((lookupKey m k).getD default)
  | _ => Except.error ()

/-- Python `str()` of a scalar YAML value as interpolated by the
f-string of the source.  Chart image tags are scalars; the container
branches (which Python would render via repr) are not exercised by any
theorem below and carry a fixed label. -/
def pyStr : Yaml → String
  | Yaml.str s => s
  | Yaml.int n => toString n
  | Yaml.bool b => if b then "True" else "False"
  | Yaml.null => "None"
  | Yaml.seq _ => "<sequence>"
  | Yaml.map _ => "<mapping>"

/-- The per-section tag map of `build_image_overrides`: the tag equal to
the target image name maps to the local image name verbatim, every other
tag to the registry prefix concatenated with the chart-declared value. -/
def buildTags (tm : List (String × Yaml)) (image_name local_image_name registry_prefix : String) :
    List (String × Yaml) :=
  tm.foldl
    (fun acc p =>
      dictSet acc p.1
        (Yaml.str (if p.1 = image_name then local_image_name else registry_prefix ++ pyStr p.2)))
    []

/-- The per-section override structure
`\x7bimages: \x7brepository: "", tags: ...\x7d\x7d`. -/
def mkOverride (tags : List (String × Yaml)) : Yaml :=
  Yaml.map [("images", Yaml.map [("repository", Yaml.str ""), ("tags", Yaml.map tags)])]

/-- One loop iteration of `build_image_overrides` for one enabled section:
resolve the chart subdirectory (fatal on ambiguity), skip the section when
no directory, no values file or no truthy `images.tags` is found, and
otherwise record the override structure under the section name. -/
def processSection (chart_dir : ChartTree) (image_name local_image_name registry_prefix : String)
    (overrides : List (String × Yaml)) (section_name : String) :
    Except Unit (List (String × Yaml)) :=
  match resolve_section_dir chart_dir section_name with
  | Except.error e => Except.error e
  | Except.ok none => Except.ok overrides
  | Except.ok (some d) =>
    match d.values with
    | none => Except.ok overrides
    | some chart_values =>
      match pyGet chart_values "images" (Yaml.map []) with
      | Except.error e => Except.error e
      | Except.ok images =>
        match pyGet images "tags" Yaml.null with
        | Except.error e => Except.error e
        | Except.ok tagsVal =>
          if pythonTruthy tagsVal then
            match tagsVal with
            | Yaml.map tm =>
              Except.ok (dictSet overrides section_name
                (mkOverride (buildTags tm image_name local_image_name registry_prefix)))
            | _ => Except.error ()
          else Except.ok overrides

/-- Embedding of `build_image_overrides` over the parsed base values. -/
def build_image_overrides (chart_dir : ChartTree) (base_values : Yaml)
    (image_name local_image_name registry_prefix : String) :
    Except Unit (List (String × Yaml)) :=
  match get_enabled_sections base_values with
  | Except.error e => Except.error e
  | Except.ok enabled =>
    if enabled.isEmpty then Except.ok []
    else enabled.foldlM (processSection chart_dir image_name local_image_name registry_prefix) []

/-! ## The orchestrator -/

/-- Embedding of `get_chart_info` on the parsed vars document: reads
`core.helm.chart_ref` and `core.helm.chart_version` and fails fatally when
either is missing or falsy. -/
def get_chart_info (vars_data : Yaml) : Except Unit (Yaml × Yaml) :=
  match pyGet vars_data "core" (Yaml.map []) with
  | Except.error e => Except.error e
  | Except.ok core =>
    match pyGet core "helm" (Yaml.map []) with
    | Except.error e => Except.error e
    | Except.ok helm =>
      match pyGet helm "chart_ref" Yaml.null with
      | Except.error e => Except.error e
      | Except.ok cr =>
        match pyGet helm "chart_version" Yaml.null with
        | Except.error e => Except.error e
        | Except.ok cv =>
          if pythonTruthy cr && pythonTruthy cv then Except.ok (cr, cv)
          else Except.error ()

/-- The outcome of one `configure_sdcore_images` run together with the
resulting on-disk content of the sd-core values file: `done` after the
single final write, `fatal` when the process exits (or raises) first, in
which case the file keeps the content it had. -/
inductive RunOutcome where
  | done (disk : String)
  | fatal (disk : String)

/-- The fixed mirror registry prefix of the source. -/
def registryPrefixConst : String := "registry.aetherproject.org/proxy/"

/-- Python `s.startswith(pre)`, as a structural character-list prefix
test. -/
def pyStartsWith (pre s : String) : Bool := pre.data.isPrefixOf s.data

/-- Python `yaml.safe_load(...) or \x7b\x7d` followed by use as a dict:
falsy loads become the empty dict, truthy non-mapping loads raise when
iterated (modelled as an error). -/
def orBlankDict (v : Yaml) : Except Unit (List (String × Yaml)) :=
  if pythonTruthy v then
    match v with
    | Yaml.map m => Except.ok m
    | _ => Except.error ()
  else Except.ok []

/-- Embedding of `configure_sdcore_images`.  The YAML serializer and
parser are external collaborators and are passed in as functions (`parse`
errors model parse exceptions).  `pulled` is the listing of the temporary
directory the chart was pulled into; `disk` is the content of the sd-core
values file, which is written exactly once, at the very end of a fully
successful run. -/
def configure_sdcore_images
    (parse : String → Except Unit Yaml) (dump : List (String × Yaml) → String)
    (vars_data : Yaml) (pulled : List ChartTree)
    (baseExists : Bool) (disk : String)
    (image_name local_image_name : String) : RunOutcome :=
  if baseExists = false then RunOutcome.fatal disk
  else
    let pr := replace_aether_templates_with_placeholders disk
    match get_chart_info vars_data with
    | Except.error _ => RunOutcome.fatal disk
    | Except.ok _ =>
      match pulled.filter (fun d => pyStartsWith "sd-core" d.name) with
      | [] => RunOutcome.fatal disk
      | [pulled_chart_dir] =>
        (match parse pr.1 with
        | Except.error _ => RunOutcome.fatal disk
        | Except.ok baseVals =>
          match build_image_overrides pulled_chart_dir baseVals
              image_name local_image_name registryPrefixConst with
          | Except.error _ => RunOutcome.fatal disk
          | Except.ok overrides =>
            match parse (dump overrides) with
            | Except.error _ => RunOutcome.fatal disk
            | Except.ok ovVals =>
              match orBlankDict baseVals, orBlankDict ovVals with
              | Except.ok baseD, Except.ok ovD =>
                (match restore_aether_templates (dump (deep_merge_dict baseD ovD)) pr.2 with
                | none => RunOutcome.fatal disk
                | some final => RunOutcome.done final)
              | _, _ => RunOutcome.fatal disk)
      | _ => RunOutcome.fatal disk

/-! ## Concrete data used by the claim witnesses -/

/-- A small chart tag map. -/
def tagsW : List (String × Yaml) := [("upf", Yaml.str "v1"), ("smf", Yaml.str "v2")]

/-- A subchart values document declaring `images.tags`. -/
def valuesW : Yaml := Yaml.map [("images", Yaml.map [("tags", Yaml.map tagsW)])]

/-- A subchart directory for the section `core5g`. -/
def dW : ChartTree := ChartTree.node "core5g" (some valuesW) []

/-- A pulled chart with a single `core5g` subdirectory. -/
def chartW : ChartTree := ChartTree.node "sd-core-root" none [dW]

/-- A pulled chart with two subdirectories both named `core5g`. -/
def chartAmb : ChartTree :=
  ChartTree.node "sd-core-x" none [ChartTree.node "core5g" none [], ChartTree.node "core5g" none []]

/-- A vars document carrying the chart reference and version. -/
def varsW : Yaml :=
  Yaml.map [("core", Yaml.map [("helm",
    Yaml.map [("chart_ref", Yaml.str "oci:sd-core"), ("chart_version", Yaml.str "1.0")])])]

/-- A chart tree for the alias fallback: no `omec-user-plane` directory,
one `bess-upf` directory. -/
def chartAlias : ChartTree :=
  ChartTree.node "sd-core-y" none [ChartTree.node "bess-upf" (some valuesW) []]

/-! # Theorems

First, fuel adequacy: every fuelled definition is independent of the fuel
once the fuel exceeds the stated measure, so the canonical-fuel versions
satisfy the recurrences of the source. -/

theorem natToDecAux_adequate : ∀ f f' n acc, n < f → n < f' →
    natToDecAux f n acc = natToDecAux f' n acc := by
  intro f
  induction f with
  | zero => intro f' n acc h _; omega
  | succ f ih =>
    intro f' n acc h h'
    cases f' with
    | zero => omega
    | succ f' =>
      simp only [natToDecAux]
      by_cases hn : n = 0
      · simp [hn]
      · simp only [if_neg hn]
        have hd : n / 10 < n := Nat.div_lt_self (Nat.pos_of_ne_zero hn) (by norm_num)
        exact ih f' (n / 10) _ (by omega) (by omega)

theorem digitsOf_zero : digitsOf 0 = [] := rfl

theorem digitsOf_succ (n : Nat) (hn : n ≠ 0) :
    digitsOf n = digitsOf (n / 10) ++ [digitCharOf (n % 10)] := by
  have hd : n / 10 < n := Nat.div_lt_self (Nat.pos_of_ne_zero hn) (by norm_num)
  have happ : ∀ m acc, natToDecAux (m + 1) m acc = digitsOf m ++ acc := by
    intro m
    induction m using Nat.strong_induction_on with
    | _ m ihm =>
      intro acc
      by_cases hm : m = 0
      · simp [hm, natToDecAux, digitsOf]
      · have hdm : m / 10 < m := Nat.div_lt_self (Nat.pos_of_ne_zero hm) (by norm_num)
        have e1 : natToDecAux (m + 1) m acc
            = natToDecAux m (m / 10) (digitCharOf (m % 10) :: acc) := by
          simp [natToDecAux, hm]
        have e2 : natToDecAux m (m / 10) (digitCharOf (m % 10) :: acc)
            = natToDecAux (m / 10 + 1) (m / 10) (digitCharOf (m % 10) :: acc) :=
          natToDecAux_adequate m (m / 10 + 1) (m / 10) _ (by omega) (by omega)
        have e3 := ihm (m / 10) hdm (digitCharOf (m % 10) :: acc)
        have e4 : digitsOf m = digitsOf (m / 10) ++ [digitCharOf (m % 10)] := by
          have g1 : digitsOf m = natToDecAux m (m / 10) [digitCharOf (m % 10)] := by
            simp [digitsOf, natToDecAux, hm]
          have g2 : natToDecAux m (m / 10) [digitCharOf (m % 10)]
              = natToDecAux (m / 10 + 1) (m / 10) [digitCharOf (m % 10)] :=
            natToDecAux_adequate m (m / 10 + 1) (m / 10) _ (by omega) (by omega)
          rw [g1, g2, ihm (m / 10) hdm [digitCharOf (m % 10)]]
        rw [e1, e2, e3, e4, List.append_assoc]
        simp
  have g1 : digitsOf n = natToDecAux n (n / 10) [digitCharOf (n % 10)] := by
    simp [digitsOf, natToDecAux, hn]
  have g2 : natToDecAux n (n / 10) [digitCharOf (n % 10)]
      = natToDecAux (n / 10 + 1) (n / 10) [digitCharOf (n % 10)] :=
    natToDecAux_adequate n (n / 10 + 1) (n / 10) _ (by omega) (by omega)
  rw [g1, g2, happ (n / 10) [digitCharOf (n % 10)]]

theorem natToDec_eq (n : Nat) : natToDec n = if n = 0 then ['0'] else digitsOf n := by
  by_cases hn : n = 0
  · simp [natToDec, hn]
  · simp only [natToDec, if_neg hn]
    rfl

theorem digitCharOf_isDigit (d : Nat) : (digitCharOf d).isDigit = true := by
  rcases d with _ | _ | _ | _ | _ | _ | _ | _ | _ | d <;> rfl

theorem digitCharOf_toNat (d : Nat) (h : d < 10) : (digitCharOf d).toNat = 48 + d := by
  rcases d with _ | _ | _ | _ | _ | _ | _ | _ | _ | d
  · decide
  · decide
  · decide
  · decide
  · decide
  · decide
  · decide
  · decide
  · decide
  · have : d = 0 := by omega
    subst this
    decide

theorem digitsOf_isDigit (n : Nat) : ∀ c ∈ digitsOf n, c.isDigit = true := by
  induction n using Nat.strong_induction_on with
  | _ n ih =>
    by_cases hn : n = 0
    · simp [hn, digitsOf_zero]
    · rw [digitsOf_succ n hn]
      intro c hc
      rcases List.mem_append.mp hc with h | h
      · exact ih (n / 10) (Nat.div_lt_self (Nat.pos_of_ne_zero hn) (by norm_num)) c h
      · simp only [List.mem_singleton] at h
        subst h
        exact digitCharOf_isDigit _

theorem natToDec_isDigit (n : Nat) : ∀ c ∈ natToDec n, c.isDigit = true := by
  rw [natToDec_eq]
  by_cases hn : n = 0
  · rw [if_pos hn]
    intro c hc
    simp only [List.mem_singleton] at hc
    subst hc
    rfl
  · rw [if_neg hn]
    exact digitsOf_isDigit n

theorem decValFrom_append (a : Nat) (l r : List Char) :
    decValFrom a (l ++ r) = decValFrom (decValFrom a l) r := by
  induction l generalizing a with
  | nil => rfl
  | cons c t ih =>
    show decValFrom (a * 10 + (c.toNat - 48)) (t ++ r)
      = decValFrom (decValFrom (a * 10 + (c.toNat - 48)) t) r
    exact ih _

theorem decValFrom_nil (a : Nat) : decValFrom a [] = a := rfl

theorem decValFrom_cons (a : Nat) (c : Char) (r : List Char) :
    decValFrom a (c :: r) = decValFrom (a * 10 + (c.toNat - 48)) r := rfl

theorem decValFrom_digitsOf : ∀ n : Nat, n ≠ 0 →
    ∀ a, decValFrom a (digitsOf n) = a * 10 ^ (digitsOf n).length + n := by
  intro n
  induction n using Nat.strong_induction_on with
  | _ n ih =>
    intro hn a
    have key : ∀ k : Nat, (a * 10 ^ k + n / 10) * 10 + n % 10 = a * 10 ^ (k + 1) + n := by
      intro k
      have h2 : n / 10 * 10 + n % 10 = n := by omega
      calc (a * 10 ^ k + n / 10) * 10 + n % 10
          = a * (10 ^ k * 10) + (n / 10 * 10 + n % 10) := by ring
        _ = a * 10 ^ (k + 1) + n := by rw [h2, pow_succ]
    by_cases hsm : n / 10 = 0
    · rw [digitsOf_succ n hn, hsm, digitsOf_zero, List.nil_append,
        decValFrom_cons, decValFrom_nil, List.length_singleton,
        digitCharOf_toNat (n % 10) (Nat.mod_lt n (by norm_num)), pow_one]
      omega
    · rw [digitsOf_succ n hn, decValFrom_append,
        ih (n / 10) (Nat.div_lt_self (Nat.pos_of_ne_zero hn) (by norm_num)) hsm a,
        decValFrom_cons, decValFrom_nil, List.length_append, List.length_singleton,
        digitCharOf_toNat (n % 10) (Nat.mod_lt n (by norm_num))]
      have h48 : 48 + n % 10 - 48 = n % 10 := by omega
      rw [h48]
      exact key _

theorem natToDec_inj (m n : Nat) (h : natToDec m = natToDec n) : m = n := by
  rw [natToDec_eq, natToDec_eq] at h
  by_cases hm : m = 0 <;> by_cases hn : n = 0
  · omega
  · exfalso
    simp only [if_pos hm, if_neg hn] at h
    have h0 : decValFrom 0 (digitsOf n) = 0 := by
      rw [← h]
      rfl
    have hv := decValFrom_digitsOf n hn 0
    rw [h0] at hv
    simp only [zero_mul, zero_add] at hv
    exact hn hv.symm
  · exfalso
    simp only [if_neg hm, if_pos hn] at h
    have h0 : decValFrom 0 (digitsOf m) = 0 := by
      rw [h]
      rfl
    have hv := decValFrom_digitsOf m hm 0
    rw [h0] at hv
    simp only [zero_mul, zero_add] at hv
    exact hm hv.symm
  · simp only [if_neg hm, if_neg hn] at h
    have h1 := decValFrom_digitsOf m hm 0
    have h2 := decValFrom_digitsOf n hn 0
    rw [h, h2] at h1
    simp only [zero_mul, zero_add] at h1
    exact h1.symm

theorem natToDec_ne_nil (n : Nat) : natToDec n ≠ [] := by
  rw [natToDec_eq]
  by_cases hn : n = 0
  · simp [hn]
  · simp only [if_neg hn]
    rw [digitsOf_succ n hn]
    simp

theorem protectAux_adequate : ∀ f f' s i, s.length < f → s.length < f' →
    protectAux f s i = protectAux f' s i := by
  intro f
  induction f with
  | zero => intro f' s i h _; omega
  | succ f ih =>
    intro f' s i h h'
    cases f' with
    | zero => omega
    | succ f' =>
      simp only [protectAux]
      split
      · rfl
      · next rest =>
        simp only [List.length_cons] at h h'
        split
        next b bs rest2 htw hdw =>
          have hsub := (List.dropWhile_sublist (l := rest) notBrace).length_le
          rw [hdw] at hsub
          simp only [List.length_cons] at hsub
          rw [ih f' rest2 (i + 1) (by omega) (by omega)]
        next hno =>
          rw [ih f' ('{' :: rest) i (by simp only [List.length_cons]; omega)
            (by simp only [List.length_cons]; omega)]
      · next c rest hno =>
        simp only [List.length_cons] at h h'
        rw [ih f' rest i (by omega) (by omega)]

theorem pyReplaceF_adequate : ∀ f f' pat repl s, s.length < f → s.length < f' →
    pyReplaceF f pat repl s = pyReplaceF f' pat repl s := by
  intro f
  induction f with
  | zero => intro f' pat repl s h _; omega
  | succ f ih =>
    intro f' pat repl s h h'
    cases f' with
    | zero => omega
    | succ f' =>
      simp only [pyReplaceF]
      split
      · rfl
      · next c rest =>
        simp only [List.length_cons] at h h'
        by_cases hp : pat ≠ [] ∧ pat.isPrefixOf (c :: rest)
        · rw [if_pos hp, if_pos hp]
          have hplen : 0 < pat.length := List.length_pos.mpr hp.1
          have hdl : ((c :: rest).drop pat.length).length = rest.length + 1 - pat.length := by
            rw [List.length_drop]
            simp
          rw [ih f' pat repl _ (by omega) (by omega)]
        · rw [if_neg hp, if_neg hp, ih f' pat repl rest (by omega) (by omega)]

theorem deep_merge_fuel_succ (f : Nat) (b : List (String × Yaml)) (k : String) (v : Yaml)
    (rest : List (String × Yaml)) :
    deep_merge_fuel (f + 1) b ((k, v) :: rest) =
      deep_merge_fuel f (dictSet b k (mergeValF f (lookupKey b k) v)) rest := rfl

theorem mergeValF_congr (f f' : Nat) (bv : Option Yaml) (v : Yaml)
    (h : ∀ bm om, bv = some (Yaml.map bm) → v = Yaml.map om →
      deep_merge_fuel f bm om = deep_merge_fuel f' bm om) :
    mergeValF f bv v = mergeValF f' bv v := by
  cases v with
  | map om =>
    cases bv with
    | none => rfl
    | some w =>
      cases w with
      | map bm => exact congrArg Yaml.map (h bm om rfl rfl)
      | str s => rfl
      | int n => rfl
      | bool b => rfl
      | null => rfl
      | seq xs => rfl
  | str s =>
    cases bv with
    | none => rfl
    | some w => cases w <;> rfl
  | int n =>
    cases bv with
    | none => rfl
    | some w => cases w <;> rfl
  | bool b =>
    cases bv with
    | none => rfl
    | some w => cases w <;> rfl
  | null =>
    cases bv with
    | none => rfl
    | some w => cases w <;> rfl
  | seq xs =>
    cases bv with
    | none => rfl
    | some w => cases w <;> rfl

theorem deep_merge_fuel_adequate : ∀ f f' b o, ydsize o < f → ydsize o < f' →
    deep_merge_fuel f b o = deep_merge_fuel f' b o := by
  intro f
  induction f with
  | zero => intro f' b o h _; omega
  | succ f ih =>
    intro f' b o h h'
    cases f' with
    | zero => omega
    | succ f' =>
      cases o with
      | nil => rfl
      | cons p rest =>
        obtain ⟨k, v⟩ := p
        rw [deep_merge_fuel_succ, deep_merge_fuel_succ]
        have hsz : ydsize ((k, v) :: rest) = 1 + ysize v + ydsize rest := rfl
        rw [hsz] at h h'
        have hmv : mergeValF f (lookupKey b k) v = mergeValF f' (lookupKey b k) v := by
          apply mergeValF_congr
          intro bm om _ hveq
          have hsz2 : ysize v = 1 + ydsize om := by rw [hveq]; rfl
          exact ih f' bm om (by omega) (by omega)
        rw [hmv]
        exact ih f' _ rest (by omega) (by omega)

theorem mergeValF_eq_mergeVal (f : Nat) (bv : Option Yaml) (v : Yaml)
    (h : ∀ om, v = Yaml.map om → ydsize om < f) :
    mergeValF f bv v = mergeVal bv v := by
  cases v with
  | map om =>
    cases bv with
    | none => rfl
    | some w =>
      cases w with
      | map bm =>
        show Yaml.map (deep_merge_fuel f bm om) = Yaml.map (deep_merge_fuel (ydsize om + 1) bm om)
        exact congrArg Yaml.map (deep_merge_fuel_adequate f _ bm om (h om rfl) (by omega))
      | str s => rfl
      | int n => rfl
      | bool b => rfl
      | null => rfl
      | seq xs => rfl
  | str s =>
    cases bv with
    | none => rfl
    | some w => cases w <;> rfl
  | int n =>
    cases bv with
    | none => rfl
    | some w => cases w <;> rfl
  | bool b =>
    cases bv with
    | none => rfl
    | some w => cases w <;> rfl
  | null =>
    cases bv with
    | none => rfl
    | some w => cases w <;> rfl
  | seq xs =>
    cases bv with
    | none => rfl
    | some w => cases w <;> rfl

theorem deep_merge_dict_nil (base : List (String × Yaml)) :
    deep_merge_dict base [] = base := rfl

theorem deep_merge_dict_cons (base : List (String × Yaml)) (k : String) (v : Yaml)
    (rest : List (String × Yaml)) :
    deep_merge_dict base ((k, v) :: rest) =
      deep_merge_dict (dictSet base k (mergeVal (lookupKey base k) v)) rest := by
  show deep_merge_fuel (ydsize ((k, v) :: rest) + 1) base ((k, v) :: rest) = _
  have hsz : ydsize ((k, v) :: rest) = 1 + ysize v + ydsize rest := rfl
  rw [deep_merge_fuel_succ]
  have hb : ∀ om, v = Yaml.map om → ydsize om < ydsize ((k, v) :: rest) := by
    intro om hveq
    subst hveq
    have h1 : ydsize ((k, Yaml.map om) :: rest) = 1 + (1 + ydsize om) + ydsize rest := rfl
    omega
  rw [mergeValF_eq_mergeVal _ _ _ hb]
  exact deep_merge_fuel_adequate _ _ _ rest (by omega) (by omega)

/-! ## Association-list lemmas for the merge engine -/

theorem any_key_iff (m : List (String × Yaml)) (k : String) :
    m.any (fun p => p.1 = k) = true ↔ k ∈ keysOf m := by
  induction m with
  | nil => simp [keysOf]
  | cons p r ih =>
    simp only [List.any_cons, Bool.or_eq_true, decide_eq_true_eq, keysOf, List.map_cons,
      List.mem_cons, ih]
    constructor
    · rintro (h | h)
      · exact Or.inl h.symm
      · exact Or.inr h
    · rintro (h | h)
      · exact Or.inl h.symm
      · exact Or.inr h

theorem lookupKey_eq_none_iff (m : List (String × Yaml)) (k : String) :
    lookupKey m k = none ↔ k ∉ keysOf m := by
  induction m with
  | nil => simp [lookupKey, keysOf]
  | cons p r ih =>
    simp only [lookupKey, keysOf, List.map_cons, List.mem_cons]
    by_cases hp : p.1 = k
    · simp [hp]
    · simp only [if_neg hp, ih, keysOf]
      constructor
      · intro h
        rintro (h1 | h1)
        · exact hp h1.symm
        · exact h h1
      · intro h h1
        exact h (Or.inr h1)

theorem lookupKey_isSome_of_mem (m : List (String × Yaml)) (k : String) (hk : k ∈ keysOf m) :
    ∃ v, lookupKey m k = some v := by
  rcases h : lookupKey m k with _ | v
  · exact absurd ((lookupKey_eq_none_iff m k).mp h) (by simp [hk])
  · exact ⟨v, rfl⟩

theorem lookupKey_mem (m : List (String × Yaml)) (k : String) (v : Yaml)
    (h : lookupKey m k = some v) : (k, v) ∈ m := by
  induction m with
  | nil => simp [lookupKey] at h
  | cons p r ih =>
    simp only [lookupKey] at h
    by_cases hp : p.1 = k
    · rw [if_pos hp] at h
      obtain ⟨p1, p2⟩ := p
      have h2 : p2 = v := Option.some.inj h
      have h1 : p1 = k := hp
      subst h1
      subst h2
      exact List.mem_cons_self _ _
    · rw [if_neg hp] at h
      exact List.mem_cons_of_mem _ (ih h)

theorem lookupKey_of_mem_nodup (m : List (String × Yaml)) (k : String) (v : Yaml)
    (hn : (keysOf m).Nodup) (h : (k, v) ∈ m) : lookupKey m k = some v := by
  induction m with
  | nil => simp at h
  | cons p r ih =>
    simp only [keysOf, List.map_cons, List.nodup_cons] at hn
    rcases List.mem_cons.mp h with h1 | h1
    · rw [← h1]
      simp [lookupKey]
    · have hp : p.1 ≠ k := by
        intro he
        exact hn.1 (he ▸ List.mem_map_of_mem Prod.fst h1)
      simp only [lookupKey, if_neg hp]
      exact ih hn.2 h1

theorem lookupKey_append_none (m1 m2 : List (String × Yaml)) (k : String)
    (h : lookupKey m1 k = none) : lookupKey (m1 ++ m2) k = lookupKey m2 k := by
  induction m1 with
  | nil => rfl
  | cons p r ih =>
    simp only [lookupKey] at h
    by_cases hp : p.1 = k
    · rw [if_pos hp] at h; exact absurd h (by simp)
    · rw [if_neg hp] at h
      simp only [List.cons_append, lookupKey, if_neg hp]
      exact ih h

theorem lookupKey_dictSet_self (m : List (String × Yaml)) (k : String) (v : Yaml) :
    lookupKey (dictSet m k v) k = some v := by
  unfold dictSet
  by_cases hany : m.any (fun p => p.1 = k) = true
  · rw [if_pos hany]
    rw [any_key_iff] at hany
    induction m with
    | nil => simp [keysOf] at hany
    | cons p r ih =>
      by_cases hp : p.1 = k
      · simp [lookupKey, hp]
      · simp only [keysOf, List.map_cons, List.mem_cons] at hany
        rcases hany with h | h
        · exact absurd h.symm hp
        · simp only [List.map_cons, if_neg hp, lookupKey, if_neg hp]
          exact ih h
  · rw [if_neg hany]
    have hnone : lookupKey m k = none := by
      rw [lookupKey_eq_none_iff]
      intro hk
      exact hany ((any_key_iff m k).mpr hk)
    rw [lookupKey_append_none _ _ _ hnone]
    simp [lookupKey]

theorem lookupKey_map_update_ne (m : List (String × Yaml)) (k k' : String) (v : Yaml)
    (h : k' ≠ k) :
    lookupKey (m.map (fun p => if p.1 = k then (k, v) else p)) k' = lookupKey m k' := by
  induction m with
  | nil => rfl
  | cons p r ih =>
    simp only [List.map_cons]
    by_cases hp : p.1 = k
    · rw [if_pos hp]
      show lookupKey ((k, v) :: _) k' = lookupKey (p :: r) k'
      simp only [lookupKey, if_neg (fun he : k = k' => h he.symm)]
      rw [if_neg (show ¬ p.1 = k' by rw [hp]; exact fun he => h he.symm)]
      exact ih
    · rw [if_neg hp]
      simp only [lookupKey]
      by_cases hp' : p.1 = k'
      · simp [hp']
      · simp only [if_neg hp']
        exact ih

theorem lookupKey_append_single_ne (m : List (String × Yaml)) (k k' : String) (v : Yaml)
    (h : k' ≠ k) : lookupKey (m ++ [(k, v)]) k' = lookupKey m k' := by
  induction m with
  | nil => simp [lookupKey, if_neg (fun he : k = k' => h he.symm)]
  | cons p r ih =>
    simp only [List.cons_append, lookupKey]
    by_cases hp' : p.1 = k'
    · simp [hp']
    · simp only [if_neg hp']
      exact ih

theorem lookupKey_dictSet_ne (m : List (String × Yaml)) (k k' : String) (v : Yaml)
    (h : k' ≠ k) : lookupKey (dictSet m k v) k' = lookupKey m k' := by
  unfold dictSet
  by_cases hany : m.any (fun p => p.1 = k) = true
  · rw [if_pos hany]
    exact lookupKey_map_update_ne m k k' v h
  · rw [if_neg hany]
    exact lookupKey_append_single_ne m k k' v h

theorem lookup_deep_merge : ∀ (o : List (String × Yaml)), (keysOf o).Nodup →
    ∀ (b : List (String × Yaml)) (k : String),
    lookupKey (deep_merge_dict b o) k =
      match lookupKey o k with
      | none => lookupKey b k
      | some v => some (mergeVal (lookupKey b k) v) := by
  intro o
  induction o with
  | nil =>
    intro _ b k
    rw [deep_merge_dict_nil]
    rfl
  | cons p rest ih =>
    intro hn b k
    obtain ⟨k', v'⟩ := p
    simp only [keysOf, List.map_cons, List.nodup_cons] at hn
    rw [deep_merge_dict_cons]
    rw [ih hn.2]
    by_cases hk : k = k'
    · subst hk
      have hrest : lookupKey rest k = none := by
        rw [lookupKey_eq_none_iff]
        exact hn.1
      simp [lookupKey, hrest, lookupKey_dictSet_self]
    · simp only [lookupKey, if_neg (fun he : k' = k => hk he.symm)]
      rw [lookupKey_dictSet_ne b k' k _ hk]

theorem mergeVal_map_map (bm om : List (String × Yaml)) :
    mergeVal (some (Yaml.map bm)) (Yaml.map om) = Yaml.map (deep_merge_dict bm om) := rfl

theorem mergeVal_other (bv : Option Yaml) (v : Yaml)
    (h : ∀ bm om, ¬ (bv = some (Yaml.map bm) ∧ v = Yaml.map om)) : mergeVal bv v = v := by
  cases v with
  | map om =>
    cases bv with
    | none => rfl
    | some w =>
      cases w with
      | map bm => exact absurd ⟨rfl, rfl⟩ (h bm om)
      | str s => rfl
      | int n => rfl
      | bool b => rfl
      | null => rfl
      | seq xs => rfl
  | str s =>
    cases bv with
    | none => rfl
    | some w => cases w <;> rfl
  | int n =>
    cases bv with
    | none => rfl
    | some w => cases w <;> rfl
  | bool b =>
    cases bv with
    | none => rfl
    | some w => cases w <;> rfl
  | null =>
    cases bv with
    | none => rfl
    | some w => cases w <;> rfl
  | seq xs =>
    cases bv with
    | none => rfl
    | some w => cases w <;> rfl

theorem mergeVal_not_map (bv : Option Yaml) (v : Yaml)
    (h : ∀ om, v ≠ Yaml.map om) : mergeVal bv v = v :=
  mergeVal_other bv v (fun _ om hc => h om hc.2)

theorem uniqB_iff_nodup (l : List String) : uniqB l = true ↔ l.Nodup := by
  induction l with
  | nil => simp [uniqB]
  | cons k r ih =>
    simp only [uniqB, Bool.and_eq_true, Bool.not_eq_true', List.nodup_cons, ih]
    constructor
    · rintro ⟨h1, h2⟩
      refine ⟨fun hm => ?_, h2⟩
      have h1' : List.elem k r = false := h1
      rw [List.elem_iff.mpr hm] at h1'
      simp at h1'
    · rintro ⟨h1, h2⟩
      refine ⟨?_, h2⟩
      cases hel : List.elem k r with
      | false => exact hel
      | true => exact absurd (List.elem_iff.mp hel) h1

/-- C2: for each key present in override, the merge holds the recursive
merge when both sides carry a mapping there and otherwise exactly the
override value; keys only in base keep their base value. -/
theorem C2_merge_characterization (base override : List (String × Yaml))
    (ho : uniqB (keysOf override) = true) :
    (∀ k bm om, lookupKey base k = some (Yaml.map bm) →
        lookupKey override k = some (Yaml.map om) →
        lookupKey (deep_merge_dict base override) k = some (Yaml.map (deep_merge_dict bm om)))
    ∧ (∀ k v, lookupKey override k = some v →
        (∀ bm om, ¬ (lookupKey base k = some (Yaml.map bm) ∧ v = Yaml.map om)) →
        lookupKey (deep_merge_dict base override) k = some v)
    ∧ (∀ k, lookupKey override k = none →
        lookupKey (deep_merge_dict base override) k = lookupKey base k) := by
  have hn := (uniqB_iff_nodup _).mp ho
  refine ⟨?_, ?_, ?_⟩
  · intro k bm om hb hov
    rw [lookup_deep_merge override hn base k, hov, hb]
    rfl
  · intro k v hov hno
    rw [lookup_deep_merge override hn base k, hov]
    show some (mergeVal (lookupKey base k) v) = some v
    rw [mergeVal_other _ _ hno]
  · intro k hov
    rw [lookup_deep_merge override hn base k, hov]

theorem keysOf_map_update (m : List (String × Yaml)) (k : String) (v : Yaml) :
    keysOf (m.map (fun p => if p.1 = k then (k, v) else p)) = keysOf m := by
  induction m with
  | nil => rfl
  | cons p r ih =>
    simp only [keysOf, List.map_cons] at ih ⊢
    by_cases hp : p.1 = k
    · rw [if_pos hp, ih, hp]
    · rw [if_neg hp, ih]

theorem keysOf_append (m1 m2 : List (String × Yaml)) :
    keysOf (m1 ++ m2) = keysOf m1 ++ keysOf m2 := by
  simp [keysOf]

theorem keysOf_dictSet_mem (m : List (String × Yaml)) (k : String) (v : Yaml)
    (h : k ∈ keysOf m) : keysOf (dictSet m k v) = keysOf m := by
  unfold dictSet
  rw [if_pos ((any_key_iff m k).mpr h)]
  exact keysOf_map_update m k v

theorem keysOf_dictSet_not_mem (m : List (String × Yaml)) (k : String) (v : Yaml)
    (h : k ∉ keysOf m) : keysOf (dictSet m k v) = keysOf m ++ [k] := by
  unfold dictSet
  rw [if_neg (fun ha => h ((any_key_iff m k).mp ha))]
  rw [keysOf_append]
  rfl

theorem nodup_dictSet (m : List (String × Yaml)) (k : String) (v : Yaml)
    (h : (keysOf m).Nodup) : (keysOf (dictSet m k v)).Nodup := by
  by_cases hm : k ∈ keysOf m
  · rw [keysOf_dictSet_mem m k v hm]
    exact h
  · rw [keysOf_dictSet_not_mem m k v hm]
    rw [List.nodup_append]
    refine ⟨h, List.nodup_singleton k, ?_⟩
    intro a ha hak
    rw [List.mem_singleton] at hak
    exact hm (hak ▸ ha)

theorem keysOf_deep_merge_subset : ∀ (o b : List (String × Yaml)),
    (∀ p ∈ o, p.1 ∈ keysOf b) → keysOf (deep_merge_dict b o) = keysOf b := by
  intro o
  induction o with
  | nil =>
    intro b _
    rw [deep_merge_dict_nil]
  | cons p rest ih =>
    intro b h
    obtain ⟨k', v'⟩ := p
    rw [deep_merge_dict_cons]
    have hk' : k' ∈ keysOf b := h _ (List.mem_cons_self _ _)
    have hkeys := keysOf_dictSet_mem b k' (mergeVal (lookupKey b k') v') hk'
    rw [ih _ (fun q hq => by rw [hkeys]; exact h q (List.mem_cons_of_mem _ hq)), hkeys]

theorem nodup_keys_deep_merge : ∀ (o b : List (String × Yaml)),
    (keysOf b).Nodup → (keysOf (deep_merge_dict b o)).Nodup := by
  intro o
  induction o with
  | nil =>
    intro b h
    rw [deep_merge_dict_nil]
    exact h
  | cons p rest ih =>
    intro b h
    obtain ⟨k', v'⟩ := p
    rw [deep_merge_dict_cons]
    exact ih _ (nodup_dictSet b k' _ h)

theorem mem_keys_deep_merge (o : List (String × Yaml)) (ho : (keysOf o).Nodup)
    (b : List (String × Yaml)) (k : String) (h : k ∈ keysOf o) :
    k ∈ keysOf (deep_merge_dict b o) := by
  obtain ⟨v, hv⟩ := lookupKey_isSome_of_mem o k h
  by_contra hk
  rw [← lookupKey_eq_none_iff] at hk
  rw [lookup_deep_merge o ho b k, hv] at hk
  simp at hk

theorem assoc_ext : ∀ (l1 l2 : List (String × Yaml)), keysOf l1 = keysOf l2 →
    (keysOf l1).Nodup → (∀ k, lookupKey l1 k = lookupKey l2 k) → l1 = l2 := by
  intro l1
  induction l1 with
  | nil =>
    intro l2 hk _ _
    cases l2 with
    | nil => rfl
    | cons p r => simp [keysOf] at hk
  | cons p r ih =>
    intro l2 hk hn hl
    cases l2 with
    | nil => simp [keysOf] at hk
    | cons q t =>
      obtain ⟨k1, v1⟩ := p
      obtain ⟨k2, v2⟩ := q
      simp only [keysOf, List.map_cons, List.cons.injEq] at hk
      obtain ⟨hk12, hkt⟩ := hk
      subst hk12
      simp only [keysOf, List.map_cons, List.nodup_cons] at hn
      have hv : v1 = v2 := by
        have h1 := hl k1
        simp only [lookupKey, if_pos rfl] at h1
        exact Option.some.inj h1
      subst hv
      have htails : r = t := by
        apply ih t hkt hn.2
        intro k
        by_cases hkk : k = k1
        · subst hkk
          have h1 : lookupKey r k = none := (lookupKey_eq_none_iff r k).mpr hn.1
          have h2 : lookupKey t k = none := by
            rw [lookupKey_eq_none_iff]
            show k ∉ keysOf t
            simp only [keysOf]
            rw [← hkt]
            exact hn.1
          rw [h1, h2]
        · have h1 := hl k
          simp only [lookupKey, if_neg (fun he : k1 = k => hkk he.symm)] at h1
          exact h1
      rw [htails]

theorem mem_ysize_lt (m : List (String × Yaml)) (k : String) (v : Yaml)
    (h : (k, v) ∈ m) : ysize v < ydsize m := by
  induction m with
  | nil => simp at h
  | cons p r ih =>
    rcases List.mem_cons.mp h with h1 | h1
    · subst h1
      have hsz : ydsize ((k, v) :: r) = 1 + ysize v + ydsize r := rfl
      omega
    · have := ih h1
      have hsz : ydsize (p :: r) = 1 + ysize p.2 + ydsize r := rfl
      omega

theorem wfD_mem : ∀ (m : List (String × Yaml)), wfD m = true → ∀ p ∈ m, wfY p.2 = true := by
  intro m
  induction m with
  | nil => intro _ p hp; simp at hp
  | cons q r ih =>
    intro h p hp
    have hq : wfY q.2 = true ∧ wfD r = true := by
      have h2 : wfD (q :: r) = (wfY q.2 && wfD r) := rfl
      rw [h2] at h
      exact Bool.and_eq_true_iff.mp h
    rcases List.mem_cons.mp hp with h1 | h1
    · rw [h1]; exact hq.1
    · exact ih hq.2 p h1

theorem wfY_map_elim (m : List (String × Yaml)) (h : wfY (Yaml.map m) = true) :
    uniqB (keysOf m) = true ∧ ∀ p ∈ m, wfY p.2 = true := by
  have h2 : wfY (Yaml.map m) = (uniqB (keysOf m) && wfD m) := rfl
  rw [h2] at h
  have h3 := Bool.and_eq_true_iff.mp h
  exact ⟨h3.1, wfD_mem m h3.2⟩

theorem deep_merge_self (m : List (String × Yaml)) (h : wfY (Yaml.map m) = true) :
    deep_merge_dict m m = m := by
  obtain ⟨hu, hv⟩ := wfY_map_elim m h
  have hn := (uniqB_iff_nodup _).mp hu
  apply assoc_ext
  · exact keysOf_deep_merge_subset m m (fun p hp => List.mem_map_of_mem Prod.fst hp)
  · exact nodup_keys_deep_merge m m hn
  · intro k
    rw [lookup_deep_merge m hn m k]
    rcases hlk : lookupKey m k with _ | v
    · rfl
    · show some (mergeVal (some v) v) = some v
      cases v with
      | map om =>
        show some (Yaml.map (deep_merge_dict om om)) = some (Yaml.map om)
        have hom : wfY (Yaml.map om) = true := hv _ (lookupKey_mem m k _ hlk)
        rw [deep_merge_self om hom]
      | str s => rfl
      | int n => rfl
      | bool b => rfl
      | null => rfl
      | seq xs => rfl
termination_by ydsize m
decreasing_by
  have h1 := mem_ysize_lt m k (Yaml.map om) (lookupKey_mem m k _ hlk)
  have h2 : ysize (Yaml.map om) = 1 + ydsize om := rfl
  omega

/-- C7: merging the override a second time into an already-merged result
changes nothing. -/
theorem C7_merge_idempotent (base override : List (String × Yaml))
    (hb : wfY (Yaml.map base) = true) (ho : wfY (Yaml.map override) = true) :
    deep_merge_dict (deep_merge_dict base override) override =
      deep_merge_dict base override := by
  obtain ⟨hub, hvb⟩ := wfY_map_elim base hb
  obtain ⟨huo, hvo⟩ := wfY_map_elim override ho
  have hno := (uniqB_iff_nodup _).mp huo
  have hnb := (uniqB_iff_nodup _).mp hub
  apply assoc_ext
  · apply keysOf_deep_merge_subset
    intro p hp
    exact mem_keys_deep_merge override hno base p.1 (List.mem_map_of_mem Prod.fst hp)
  · exact nodup_keys_deep_merge override _ (nodup_keys_deep_merge override base hnb)
  · intro k
    rw [lookup_deep_merge override hno (deep_merge_dict base override) k]
    rcases ho2 : lookupKey override k with _ | v
    · rfl
    · show some (mergeVal (lookupKey (deep_merge_dict base override) k) v) =
        lookupKey (deep_merge_dict base override) k
      rw [lookup_deep_merge override hno base k, ho2]
      show some (mergeVal (some (mergeVal (lookupKey base k) v)) v) =
        some (mergeVal (lookupKey base k) v)
      cases v with
      | map om =>
        have hom : wfY (Yaml.map om) = true := hvo _ (lookupKey_mem _ _ _ ho2)
        rcases hbk : lookupKey base k with _ | w
        · show some (Yaml.map (deep_merge_dict om om)) = some (Yaml.map om)
          rw [deep_merge_self om hom]
        · cases w with
          | map bm =>
            have hbm : wfY (Yaml.map bm) = true := hvb _ (lookupKey_mem _ _ _ hbk)
            show some (Yaml.map (deep_merge_dict (deep_merge_dict bm om) om)) =
              some (Yaml.map (deep_merge_dict bm om))
            rw [C7_merge_idempotent bm om hbm hom]
          | str s =>
            show some (Yaml.map (deep_merge_dict om om)) = some (Yaml.map om)
            rw [deep_merge_self om hom]
          | int n =>
            show some (Yaml.map (deep_merge_dict om om)) = some (Yaml.map om)
            rw [deep_merge_self om hom]
          | bool b2 =>
            show some (Yaml.map (deep_merge_dict om om)) = some (Yaml.map om)
            rw [deep_merge_self om hom]
          | null =>
            show some (Yaml.map (deep_merge_dict om om)) = some (Yaml.map om)
            rw [deep_merge_self om hom]
          | seq xs =>
            show some (Yaml.map (deep_merge_dict om om)) = some (Yaml.map om)
            rw [deep_merge_self om hom]
      | str s =>
        rw [mergeVal_not_map (lookupKey base k) _ (fun om hc => Yaml.noConfusion hc),
          mergeVal_not_map _ _ (fun om hc => Yaml.noConfusion hc)]
      | int n =>
        rw [mergeVal_not_map (lookupKey base k) _ (fun om hc => Yaml.noConfusion hc),
          mergeVal_not_map _ _ (fun om hc => Yaml.noConfusion hc)]
      | bool b2 =>
        rw [mergeVal_not_map (lookupKey base k) _ (fun om hc => Yaml.noConfusion hc),
          mergeVal_not_map _ _ (fun om hc => Yaml.noConfusion hc)]
      | null =>
        rw [mergeVal_not_map (lookupKey base k) _ (fun om hc => Yaml.noConfusion hc),
          mergeVal_not_map _ _ (fun om hc => Yaml.noConfusion hc)]
      | seq xs =>
        rw [mergeVal_not_map (lookupKey base k) _ (fun om hc => Yaml.noConfusion hc),
          mergeVal_not_map _ _ (fun om hc => Yaml.noConfusion hc)]
termination_by ydsize override
decreasing_by
  have h1 := mem_ysize_lt override k (Yaml.map om) (lookupKey_mem _ _ _ ho2)
  have h2 : ysize (Yaml.map om) = 1 + ydsize om := rfl
  omega

/-- Witness for C2 at a concrete pair of documents. -/
theorem C2_merge_characterization_witness :
    lookupKey
        (deep_merge_dict
          [("a", Yaml.map [("x", Yaml.int 1), ("y", Yaml.int 2)]), ("b", Yaml.int 3)]
          [("a", Yaml.map [("y", Yaml.int 9)]), ("c", Yaml.int 4)]) "a" =
      some (Yaml.map (deep_merge_dict [("x", Yaml.int 1), ("y", Yaml.int 2)]
        [("y", Yaml.int 9)]))
    ∧ lookupKey
        (deep_merge_dict
          [("a", Yaml.map [("x", Yaml.int 1), ("y", Yaml.int 2)]), ("b", Yaml.int 3)]
          [("a", Yaml.map [("y", Yaml.int 9)]), ("c", Yaml.int 4)]) "c" = some (Yaml.int 4)
    ∧ lookupKey
        (deep_merge_dict
          [("a", Yaml.map [("x", Yaml.int 1), ("y", Yaml.int 2)]), ("b", Yaml.int 3)]
          [("a", Yaml.map [("y", Yaml.int 9)]), ("c", Yaml.int 4)]) "b" =
      lookupKey [("a", Yaml.map [("x", Yaml.int 1), ("y", Yaml.int 2)]), ("b", Yaml.int 3)] "b" := by
  have h := C2_merge_characterization
    [("a", Yaml.map [("x", Yaml.int 1), ("y", Yaml.int 2)]), ("b", Yaml.int 3)]
    [("a", Yaml.map [("y", Yaml.int 9)]), ("c", Yaml.int 4)] (by rfl)
  exact ⟨h.1 "a" _ _ rfl rfl,
    h.2.1 "c" (Yaml.int 4) rfl (fun bm om hc => Yaml.noConfusion hc.2),
    h.2.2 "b" rfl⟩

/-- Witness for C7 at a concrete pair of documents. -/
theorem C7_merge_idempotent_witness :
    deep_merge_dict
        (deep_merge_dict [("a", Yaml.map [("x", Yaml.int 1)])]
          [("a", Yaml.map [("x", Yaml.int 5)]), ("b", Yaml.str "s")])
        [("a", Yaml.map [("x", Yaml.int 5)]), ("b", Yaml.str "s")] =
      deep_merge_dict [("a", Yaml.map [("x", Yaml.int 1)])]
        [("a", Yaml.map [("x", Yaml.int 5)]), ("b", Yaml.str "s")] :=
  C7_merge_idempotent _ _ (by rfl) (by rfl)

/-! ## Section enabler -/

theorem isTrueFlag_iff (ov : Option Yaml) :
    isTrueFlag ov = true ↔ ov = some (Yaml.bool true) := by
  cases ov with
  | none => simp [isTrueFlag]
  | some w =>
    cases w with
    | bool b => cases b <;> simp [isTrueFlag]
    | str s => simp [isTrueFlag]
    | int n => simp [isTrueFlag]
    | null => simp [isTrueFlag]
    | seq xs => simp [isTrueFlag]
    | map fm => simp [isTrueFlag]

theorem sectionEnabled_map_iff (fm : List (String × Yaml)) :
    sectionEnabled (Yaml.map fm) = true ↔
      (lookupKey fm "enable" = some (Yaml.bool true) ∨
       lookupKey fm "enable5G" = some (Yaml.bool true) ∨
       lookupKey fm "enable4G" = some (Yaml.bool true)) := by
  show (isTrueFlag (lookupKey fm "enable") || isTrueFlag (lookupKey fm "enable5G") ||
    isTrueFlag (lookupKey fm "enable4G")) = true ↔ _
  simp only [Bool.or_eq_true, isTrueFlag_iff]
  tauto

theorem enabled_foldl_eq (m : List (String × Yaml)) :
    ∀ acc : List String,
      m.foldl (fun acc p => if sectionEnabled p.2 then acc ++ [p.1] else acc) acc =
        acc ++ (m.filter (fun p => sectionEnabled p.2)).map Prod.fst := by
  induction m with
  | nil => intro acc; simp
  | cons p r ih =>
    intro acc
    by_cases hp : sectionEnabled p.2 = true
    · rw [List.foldl_cons, if_pos hp, ih]
      simp [List.filter_cons, hp]
    · rw [List.foldl_cons, if_neg hp, ih]
      simp [List.filter_cons, hp]

/-- C3 counterexample: the claim admits any truthy flag value, but a
section whose `enable` flag holds the truthy integer `1` is excluded by
the source's `is True` test, so the claim as stated is false. -/
theorem C3_truthy_counterexample :
    claimedSectionEnabled (Yaml.map [("enable", Yaml.int 1)]) = true
    ∧ get_enabled_sections
        (Yaml.map [("upf", Yaml.map [("enable", Yaml.int 1)])]) = Except.ok [] :=
  ⟨rfl, rfl⟩

/-- C3 (amended): `get_enabled_sections` returns exactly the top-level
keys, in document order, whose value is a mapping carrying one of the
flags `enable`, `enable5G`, `enable4G` set to exactly boolean true; a
section with all such flags false, absent, or set to any non-`true`
value is excluded, and a top-level key whose value is not a mapping is
never included. -/
theorem C3_enabled_sections (m : List (String × Yaml)) (hu : uniqB (keysOf m) = true) :
    get_enabled_sections (Yaml.map m) =
      Except.ok ((m.filter (fun p => sectionEnabled p.2)).map Prod.fst)
    ∧ ∀ s, s ∈ (m.filter (fun p => sectionEnabled p.2)).map Prod.fst ↔
        (∃ fm, lookupKey m s = some (Yaml.map fm) ∧
          (lookupKey fm "enable" = some (Yaml.bool true) ∨
           lookupKey fm "enable5G" = some (Yaml.bool true) ∨
           lookupKey fm "enable4G" = some (Yaml.bool true))) := by
  have hn := (uniqB_iff_nodup _).mp hu
  constructor
  · unfold get_enabled_sections
    by_cases hm : m.isEmpty
    · have hp : pythonTruthy (Yaml.map m) = !m.isEmpty := rfl
      rw [if_neg (by rw [hp, hm]; simp)]
      have : m = [] := List.isEmpty_iff.mp hm
      subst this
      rfl
    · have hp : pythonTruthy (Yaml.map m) = !m.isEmpty := rfl
      rw [if_pos (by rw [hp]; simp [hm])]
      show Except.ok
          (m.foldl (fun acc p => if sectionEnabled p.2 then acc ++ [p.1] else acc) []) = _
      rw [enabled_foldl_eq m []]
      rfl
  · intro s
    constructor
    · intro hs
      obtain ⟨p, hpf, hps⟩ := List.mem_map.mp hs
      obtain ⟨hpm, hpe⟩ := List.mem_filter.mp hpf
      obtain ⟨k, v⟩ := p
      simp only at hps hpe
      subst hps
      cases v with
      | map fm =>
        exact ⟨fm, lookupKey_of_mem_nodup m k _ hn hpm, (sectionEnabled_map_iff fm).mp hpe⟩
      | str s2 => exact absurd hpe (by simp [sectionEnabled])
      | int n => exact absurd hpe (by simp [sectionEnabled])
      | bool b => exact absurd hpe (by simp [sectionEnabled])
      | null => exact absurd hpe (by simp [sectionEnabled])
      | seq xs => exact absurd hpe (by simp [sectionEnabled])
    · rintro ⟨fm, hlk, hflag⟩
      have hmem := lookupKey_mem m s _ hlk
      apply List.mem_map.mpr
      refine ⟨(s, Yaml.map fm), List.mem_filter.mpr ⟨hmem, ?_⟩, rfl⟩
      exact (sectionEnabled_map_iff fm).mpr hflag

/-- Witness for the amended C3 at a concrete values document. -/
theorem C3_enabled_sections_witness :
    get_enabled_sections
        (Yaml.map [("upf", Yaml.map [("enable", Yaml.bool true)]), ("x", Yaml.int 3)]) =
      Except.ok ["upf"]
    ∧ ("upf" ∈ ([("upf", Yaml.map [("enable", Yaml.bool true)]), ("x", Yaml.int 3)].filter
        (fun p => sectionEnabled p.2)).map Prod.fst) := by
  have h := C3_enabled_sections
    [("upf", Yaml.map [("enable", Yaml.bool true)]), ("x", Yaml.int 3)] (by rfl)
  exact ⟨h.1.trans (by rfl),
    (h.2 "upf").mpr ⟨[("enable", Yaml.bool true)], rfl, Or.inl rfl⟩⟩

/-! ## Override builder -/

theorem foldl_dictSet_fresh (g : String × Yaml → Yaml) :
    ∀ (tm init : List (String × Yaml)), (keysOf tm).Nodup →
      (∀ p ∈ tm, p.1 ∉ keysOf init) →
      tm.foldl (fun acc p => dictSet acc p.1 (g p)) init =
        init ++ tm.map (fun p => (p.1, g p)) := by
  intro tm
  induction tm with
  | nil => intro init _ _; simp
  | cons p rest ih =>
    intro init hn hf
    simp only [List.foldl_cons]
    have hp : p.1 ∉ keysOf init := hf p (List.mem_cons_self _ _)
    have hset : dictSet init p.1 (g p) = init ++ [(p.1, g p)] := by
      unfold dictSet
      rw [if_neg (fun ha => hp ((any_key_iff init p.1).mp ha))]
    rw [hset]
    simp only [keysOf, List.map_cons, List.nodup_cons] at hn
    have hfresh : ∀ q ∈ rest, q.1 ∉ keysOf (init ++ [(p.1, g p)]) := by
      intro q hq
      rw [keysOf_append]
      simp only [List.mem_append]
      rintro (h1 | h1)
      · exact hf q (List.mem_cons_of_mem _ hq) h1
      · simp only [keysOf, List.map_cons, List.map_nil, List.mem_singleton] at h1
        exact hn.1 (h1 ▸ List.mem_map_of_mem Prod.fst hq)
    rw [ih (init ++ [(p.1, g p)]) hn.2 hfresh]
    simp

theorem lookupKey_map_pair (g : String × Yaml → Yaml) :
    ∀ (tm : List (String × Yaml)), (keysOf tm).Nodup → ∀ t v, (t, v) ∈ tm →
      lookupKey (tm.map (fun p => (p.1, g p))) t = some (g (t, v)) := by
  intro tm
  induction tm with
  | nil => intro _ t v h; simp at h
  | cons p rest ih =>
    intro hn t v h
    simp only [keysOf, List.map_cons, List.nodup_cons] at hn
    rcases List.mem_cons.mp h with h1 | h1
    · rw [← h1]
      simp [lookupKey]
    · have hp : p.1 ≠ t := by
        intro he
        exact hn.1 (he ▸ List.mem_map_of_mem Prod.fst h1)
      simp only [List.map_cons, lookupKey, if_neg hp]
      exact ih hn.2 t v h1

theorem buildTags_eq (tm : List (String × Yaml)) (hn : (keysOf tm).Nodup)
    (image_name local_image_name registry_prefix : String) :
    buildTags tm image_name local_image_name registry_prefix =
      tm.map (fun p => (p.1, Yaml.str
        (if p.1 = image_name then local_image_name else registry_prefix ++ pyStr p.2))) := by
  unfold buildTags
  rw [foldl_dictSet_fresh
    (fun p => Yaml.str (if p.1 = image_name then local_image_name
      else registry_prefix ++ pyStr p.2)) tm [] hn (by intro p _; simp [keysOf])]
  simp

/-- C4: for a section whose chart declares an `images.tags` mapping, the
built override stores, under the section name, an `images` structure with
`repository` set to the empty string and a tag map sending the target
image name to the local image name verbatim and every other tag to the
registry prefix concatenated with the chart-declared value. -/
theorem C4_override_construction
    (chart_dir : ChartTree) (image_name local_image_name registry_prefix : String)
    (overrides : List (String × Yaml)) (section_name : String) (d : ChartTree)
    (cv im tm : List (String × Yaml))
    (hres : resolve_section_dir chart_dir section_name = Except.ok (some d))
    (hval : d.values = some (Yaml.map cv))
    (him : lookupKey cv "images" = some (Yaml.map im))
    (htags : lookupKey im "tags" = some (Yaml.map tm))
    (hne : tm ≠ []) (hu : uniqB (keysOf tm) = true) :
    processSection chart_dir image_name local_image_name registry_prefix overrides section_name =
      Except.ok (dictSet overrides section_name
        (Yaml.map [("images",
          Yaml.map [("repository", Yaml.str ""),
            ("tags", Yaml.map (buildTags tm image_name local_image_name registry_prefix))])]))
    ∧ (∀ t s, (t, Yaml.str s) ∈ tm →
        lookupKey (buildTags tm image_name local_image_name registry_prefix) t =
          some (Yaml.str (if t = image_name then local_image_name
            else registry_prefix ++ s))) := by
  have h1 : pyGet (Yaml.map cv) "images" (Yaml.map []) = Except.ok (Yaml.map im) := by
    show Except.ok ((lookupKey cv "images").getD (Yaml.map [])) = _
    rw [him]
    rfl
  have h2 : pyGet (Yaml.map im) "tags" Yaml.null = Except.ok (Yaml.map tm) := by
    show Except.ok ((lookupKey im "tags").getD Yaml.null) = _
    rw [htags]
    rfl
  have h3 : pythonTruthy (Yaml.map tm) = true := by
    cases tm with
    | nil => exact absurd rfl hne
    | cons a b => rfl
  constructor
  · simp only [processSection, hres, hval, h1, h2, h3, if_true]
    rfl
  · intro t s hmem
    rw [buildTags_eq tm ((uniqB_iff_nodup _).mp hu)]
    exact lookupKey_map_pair _ tm ((uniqB_iff_nodup _).mp hu) t (Yaml.str s) hmem

/-- Witness for C4 at a concrete chart. -/
theorem C4_override_construction_witness :
    processSection chartW "upf" "local:test" "mirror.example.org/" [] "core5g" =
      Except.ok (dictSet [] "core5g"
        (Yaml.map [("images",
          Yaml.map [("repository", Yaml.str ""),
            ("tags", Yaml.map (buildTags tagsW "upf" "local:test" "mirror.example.org/"))])]))
    ∧ lookupKey (buildTags tagsW "upf" "local:test" "mirror.example.org/") "smf" =
        some (Yaml.str (if "smf" = "upf" then "local:test"
          else "mirror.example.org/" ++ "v2")) := by
  have h := C4_override_construction chartW "upf" "local:test" "mirror.example.org/" []
    "core5g" dW [("images", Yaml.map [("tags", Yaml.map tagsW)])]
    [("tags", Yaml.map tagsW)] tagsW rfl rfl rfl rfl (by simp [tagsW]) rfl
  exact ⟨h.1, h.2 "smf" "v2" (by simp [tagsW])⟩

theorem processSection_keys (chart_dir : ChartTree)
    (image_name local_image_name registry_prefix : String)
    (acc acc' : List (String × Yaml)) (s : String)
    (h : processSection chart_dir image_name local_image_name registry_prefix acc s =
      Except.ok acc') :
    ∀ k, k ∈ keysOf acc' → k ∈ keysOf acc ∨ k = s := by
  intro k hk
  unfold processSection at h
  rcases hres : resolve_section_dir chart_dir s with e | od
  · simp only [hres] at h
    exact Except.noConfusion h
  · simp only [hres] at h
    cases od with
    | none =>
      have : acc = acc' := Except.ok.inj h
      subst this
      exact Or.inl hk
    | some d =>
      rcases hdv : d.values with _ | cvv
      · simp only [hdv] at h
        have : acc = acc' := Except.ok.inj h
        subst this
        exact Or.inl hk
      · simp only [hdv] at h
        rcases hpg : pyGet cvv "images" (Yaml.map []) with e | img
        · simp only [hpg] at h
          exact Except.noConfusion h
        · simp only [hpg] at h
          rcases hpt : pyGet img "tags" Yaml.null with e | tv
          · simp only [hpt] at h
            exact Except.noConfusion h
          · simp only [hpt] at h
            by_cases htr : pythonTruthy tv = true
            · rw [if_pos htr] at h
              cases tv with
              | map tmm =>
                have : dictSet acc s _ = acc' := Except.ok.inj h
                subst this
                by_cases hsm : s ∈ keysOf acc
                · rw [keysOf_dictSet_mem acc s _ hsm] at hk
                  exact Or.inl hk
                · rw [keysOf_dictSet_not_mem acc s _ hsm] at hk
                  rcases List.mem_append.mp hk with h1 | h1
                  · exact Or.inl h1
                  · exact Or.inr (List.mem_singleton.mp h1)
              | str s2 => simp at h
              | int n => simp at h
              | bool b => simp at h
              | null => simp at h
              | seq xs => simp at h
            · rw [if_neg htr] at h
              have : acc = acc' := Except.ok.inj h
              subst this
              exact Or.inl hk

theorem foldlM_not_key (chart_dir : ChartTree)
    (image_name local_image_name registry_prefix : String) (s : String)
    (hstep : ∀ acc, processSection chart_dir image_name local_image_name registry_prefix
      acc s = Except.ok acc) :
    ∀ (lst : List String) (acc res : List (String × Yaml)), s ∉ keysOf acc →
      lst.foldlM (processSection chart_dir image_name local_image_name registry_prefix)
        acc = Except.ok res → s ∉ keysOf res := by
  intro lst
  induction lst with
  | nil =>
    intro acc res hs h
    have : acc = res := Except.ok.inj h
    subst this
    exact hs
  | cons a rest ih =>
    intro acc res hs h
    rw [List.foldlM_cons] at h
    by_cases ha : a = s
    · subst ha
      rw [hstep acc] at h
      exact ih acc res hs h
    · rcases hstep2 : processSection chart_dir image_name local_image_name registry_prefix
        acc a with e | acc'
      · rw [hstep2] at h
        have h' : (Except.error e : Except Unit (List (String × Yaml))) = Except.ok res := h
        cases h'
      · rw [hstep2] at h
        have h' : rest.foldlM
            (processSection chart_dir image_name local_image_name registry_prefix) acc' =
          Except.ok res := h
        apply ih acc' res ?_ h'
        intro hmem
        rcases processSection_keys chart_dir image_name local_image_name registry_prefix
          acc acc' a hstep2 s hmem with h1 | h1
        · exact hs h1
        · exact ha h1.symm

/-- C8: an enabled section with no resolvable chart directory, no values
file, or no truthy `images.tags` is skipped without error: the per-section
step returns the accumulator unchanged, and the section name is absent
from any successfully returned override document. -/
theorem C8_skip_sections (chart_dir : ChartTree)
    (image_name local_image_name registry_prefix : String) (section_name : String)
    (hskip : resolve_section_dir chart_dir section_name = Except.ok none
      ∨ (∃ d, resolve_section_dir chart_dir section_name = Except.ok (some d) ∧
          d.values = none)
      ∨ (∃ d cvv img tv, resolve_section_dir chart_dir section_name = Except.ok (some d) ∧
          d.values = some cvv ∧ pyGet cvv "images" (Yaml.map []) = Except.ok img ∧
          pyGet img "tags" Yaml.null = Except.ok tv ∧ pythonTruthy tv = false)) :
    (∀ overrides, processSection chart_dir image_name local_image_name registry_prefix
        overrides section_name = Except.ok overrides)
    ∧ (∀ base_values res, build_image_overrides chart_dir base_values
        image_name local_image_name registry_prefix = Except.ok res →
        lookupKey res section_name = none) := by
  have hstep : ∀ overrides, processSection chart_dir image_name local_image_name
      registry_prefix overrides section_name = Except.ok overrides := by
    intro overrides
    unfold processSection
    rcases hskip with h | ⟨d, hres, hdv⟩ | ⟨d, cvv, img, tv, hres, hdv, hpg, hpt, htr⟩
    · simp only [h]
    · simp only [hres, hdv]
    · simp only [hres, hdv, hpg, hpt, htr]
      rfl
  refine ⟨hstep, ?_⟩
  intro base_values res h
  unfold build_image_overrides at h
  rcases hen : get_enabled_sections base_values with e | enabled
  · simp only [hen] at h
    exact Except.noConfusion h
  · simp only [hen] at h
    by_cases hemp : enabled.isEmpty
    · rw [if_pos hemp] at h
      have : ([] : List (String × Yaml)) = res := Except.ok.inj h
      subst this
      rfl
    · rw [if_neg hemp] at h
      rw [lookupKey_eq_none_iff]
      exact foldlM_not_key chart_dir image_name local_image_name registry_prefix
        section_name hstep enabled [] res (by simp [keysOf]) h

/-- Witness for C8: a section with no matching chart directory is skipped
and absent from the result of a successful run. -/
theorem C8_skip_sections_witness :
    processSection chartW "upf" "local:test" "mirror.example.org/" [] "nosuch" =
      Except.ok []
    ∧ lookupKey [] "nosuch" = none := by
  have h := C8_skip_sections chartW "upf" "local:test" "mirror.example.org/" "nosuch"
    (Or.inl rfl)
  exact ⟨h.1 [], h.2 (Yaml.map [("nosuch", Yaml.map [("enable", Yaml.bool true)])]) [] rfl⟩

/-- C9: the `bess-upf` alias lookup is attempted exactly when the section
is `omec-user-plane` and the primary lookup found no directory, and its
result is used as the section directory; when the primary lookup finds a
directory it is used directly. -/
theorem C9_alias_fallback (chart_dir : ChartTree) :
    (find_single_directory chart_dir "omec-user-plane" = Except.ok none →
      resolve_section_dir chart_dir "omec-user-plane" =
        find_single_directory chart_dir "bess-upf")
    ∧ (∀ d, find_single_directory chart_dir "omec-user-plane" = Except.ok (some d) →
      resolve_section_dir chart_dir "omec-user-plane" = Except.ok (some d))
    ∧ (∀ s, s ≠ "omec-user-plane" → find_single_directory chart_dir s = Except.ok none →
      resolve_section_dir chart_dir s = Except.ok none) := by
  refine ⟨?_, ?_, ?_⟩
  · intro h
    unfold resolve_section_dir
    simp [h]
  · intro d h
    unfold resolve_section_dir
    simp only [h]
  · intro s hs h
    unfold resolve_section_dir
    simp only [h, if_neg hs]

/-- Witness for C9: a chart with no `omec-user-plane` directory and one
`bess-upf` directory resolves to the alias match. -/
theorem C9_alias_fallback_witness :
    resolve_section_dir chartAlias "omec-user-plane" =
      find_single_directory chartAlias "bess-upf"
    ∧ find_single_directory chartAlias "bess-upf" =
      Except.ok (some (ChartTree.node "bess-upf" (some valuesW) [])) :=
  ⟨(C9_alias_fallback chartAlias).1 rfl, rfl⟩

/-! ## Orchestrator fatality on ambiguous chart layout -/

theorem find_single_directory_ambiguous (base_dir : ChartTree) (name : String)
    (d1 d2 : ChartTree) (rest : List ChartTree)
    (h : (descendants base_dir).filter (fun d => d.name = name) = d1 :: d2 :: rest) :
    find_single_directory base_dir name = Except.error () := by
  unfold find_single_directory
  rw [h]

theorem resolve_section_dir_ambiguous (chart_dir : ChartTree) (s : String)
    (d1 d2 : ChartTree) (rest : List ChartTree)
    (h : (descendants chart_dir).filter (fun d => d.name = s) = d1 :: d2 :: rest) :
    resolve_section_dir chart_dir s = Except.error () := by
  unfold resolve_section_dir
  rw [find_single_directory_ambiguous chart_dir s d1 d2 rest h]

theorem processSection_ambiguous (chart_dir : ChartTree)
    (image_name local_image_name registry_prefix : String)
    (overrides : List (String × Yaml)) (s : String)
    (d1 d2 : ChartTree) (rest : List ChartTree)
    (h : (descendants chart_dir).filter (fun d => d.name = s) = d1 :: d2 :: rest) :
    processSection chart_dir image_name local_image_name registry_prefix overrides s =
      Except.error () := by
  unfold processSection
  rw [resolve_section_dir_ambiguous chart_dir s d1 d2 rest h]

theorem foldlM_section_error (chart_dir : ChartTree)
    (image_name local_image_name registry_prefix : String) (s : String)
    (herr : ∀ acc, processSection chart_dir image_name local_image_name registry_prefix
      acc s = Except.error ()) :
    ∀ (lst : List String) (acc : List (String × Yaml)), s ∈ lst →
      lst.foldlM (processSection chart_dir image_name local_image_name registry_prefix)
        acc = Except.error () := by
  intro lst
  induction lst with
  | nil => intro acc h; simp at h
  | cons a rest ih =>
    intro acc hs
    rw [List.foldlM_cons]
    rcases List.mem_cons.mp hs with h1 | h1
    · subst h1
      rw [herr acc]
      rfl
    · rcases hstep : processSection chart_dir image_name local_image_name registry_prefix
        acc a with e | acc'
      · obtain ⟨⟩ := e
        rfl
      · exact ih acc' h1

theorem build_image_overrides_ambiguous (chart_dir : ChartTree) (base_values : Yaml)
    (image_name local_image_name registry_prefix : String)
    (enabled : List String) (s : String)
    (hen : get_enabled_sections base_values = Except.ok enabled) (hs : s ∈ enabled)
    (d1 d2 : ChartTree) (rest : List ChartTree)
    (h : (descendants chart_dir).filter (fun d => d.name = s) = d1 :: d2 :: rest) :
    build_image_overrides chart_dir base_values image_name local_image_name
      registry_prefix = Except.error () := by
  unfold build_image_overrides
  simp only [hen]
  have hemp : ¬ enabled.isEmpty = true := by
    cases enabled with
    | nil => simp at hs
    | cons a b => simp
  rw [if_neg hemp]
  exact foldlM_section_error chart_dir image_name local_image_name registry_prefix s
    (fun acc => processSection_ambiguous chart_dir image_name local_image_name
      registry_prefix acc s d1 d2 rest h) enabled [] hs

/-- C6: a chart tree holding more than one directory named like an
enabled section makes the run exit fatally inside the section-directory
lookup, before the single final write of the values file, whose on-disk
content is therefore unchanged. -/
theorem C6_ambiguous_chart_fatal
    (parse : String → Except Unit Yaml) (dump : List (String × Yaml) → String)
    (vars_data : Yaml) (pulled : List ChartTree) (baseExists : Bool) (disk : String)
    (image_name local_image_name : String)
    (pulled_chart : ChartTree)
    (hpull : pulled.filter (fun d => pyStartsWith "sd-core" d.name) = [pulled_chart])
    (baseVals : Yaml)
    (hparse : parse (replace_aether_templates_with_placeholders disk).1 =
      Except.ok baseVals)
    (enabled : List String) (s : String)
    (hen : get_enabled_sections baseVals = Except.ok enabled) (hs : s ∈ enabled)
    (d1 d2 : ChartTree) (rest : List ChartTree)
    (hamb : (descendants pulled_chart).filter (fun d => d.name = s) = d1 :: d2 :: rest) :
    configure_sdcore_images parse dump vars_data pulled baseExists disk
      image_name local_image_name = RunOutcome.fatal disk := by
  unfold configure_sdcore_images
  by_cases hbe : baseExists = false
  · rw [if_pos hbe]
  · rw [if_neg hbe]
    rcases hci : get_chart_info vars_data with e | ci
    · simp only [hci]
    · simp only [hci, hpull, hparse,
        build_image_overrides_ambiguous pulled_chart baseVals image_name local_image_name
          registryPrefixConst enabled s hen hs d1 d2 rest hamb]

/-- Witness for C6: two `core5g` directories in the pulled chart make the
run fatal and leave the disk content as it was. -/
theorem C6_ambiguous_chart_fatal_witness :
    configure_sdcore_images
      (fun _ => Except.ok (Yaml.map [("core5g", Yaml.map [("enable", Yaml.bool true)])]))
      (fun _ => "") varsW [chartAmb] true "orig: 1\n" "upf" "local:test" =
      RunOutcome.fatal "orig: 1\n" :=
  C6_ambiguous_chart_fatal
    (fun _ => Except.ok (Yaml.map [("core5g", Yaml.map [("enable", Yaml.bool true)])]))
    (fun _ => "") varsW [chartAmb] true "orig: 1\n" "upf" "local:test" chartAmb
    (by rfl) (Yaml.map [("core5g", Yaml.map [("enable", Yaml.bool true)])]) (by rfl)
    ["core5g"] "core5g" (by rfl) (by simp)
    (ChartTree.node "core5g" none []) (ChartTree.node "core5g" none []) [] (by rfl)

/-! ## Restoration -/

theorem restoreStep_no_match (content : List Char) (n : Nat) (pt : String × String)
    (h1 : subList ('"' :: (pt.1.data ++ ['"'])) content = false)
    (h2 : subList pt.1.data content = false) :
    restoreStep (content, n) pt = (content, n) := by
  unfold restoreStep
  rw [if_neg (by simp [h1]), if_neg (by simp [h2])]

theorem foldl_restoreStep_no_match (content : List Char) :
    ∀ (lst : List (String × String)),
      (∀ pt ∈ lst, subList ('"' :: (pt.1.data ++ ['"'])) content = false ∧
        subList pt.1.data content = false) →
      ∀ n, lst.foldl restoreStep (content, n) = (content, n) := by
  intro lst
  induction lst with
  | nil => intro _ n; rfl
  | cons pt rest ih =>
    intro h n
    rw [List.foldl_cons,
      restoreStep_no_match content n pt (h pt (List.mem_cons_self _ _)).1
        (h pt (List.mem_cons_self _ _)).2]
    exact ih (fun q hq => h q (List.mem_cons_of_mem _ hq)) n

theorem perm_insertByLen (x : String × String) (l : List (String × String)) :
    (insertByLen x l).Perm (x :: l) := by
  induction l with
  | nil => exact List.Perm.refl _
  | cons y ys ih =>
    unfold insertByLen
    by_cases h : y.1.length ≤ x.1.length
    · rw [if_pos h]
    · rw [if_neg h]
      exact (List.Perm.cons y ih).trans (List.Perm.swap x y ys)

theorem perm_sortByLenDesc (l : List (String × String)) : (sortByLenDesc l).Perm l := by
  induction l with
  | nil => exact List.Perm.refl _
  | cons x xs ih =>
    unfold sortByLenDesc
    exact (perm_insertByLen x (sortByLenDesc xs)).trans (List.Perm.cons x ih)

/-- C5: when the placeholder table is non-empty and no placeholder occurs
in the text (neither quoted nor bare), zero restorations are made and
`restore_aether_templates` exits fatally instead of returning the text. -/
theorem C5_zero_restorations_fatal (content : String)
    (templates : List (String × String)) (hne : templates ≠ [])
    (hnone : ∀ pt ∈ templates,
      subList ('"' :: (pt.1.data ++ ['"'])) content.data = false ∧
      subList pt.1.data content.data = false) :
    restore_aether_templates content templates = none := by
  unfold restore_aether_templates
  rw [foldl_restoreStep_no_match content.data (sortByLenDesc templates)
    (fun pt hpt => hnone pt ((perm_sortByLenDesc templates).mem_iff.mp hpt)) 0]
  rw [if_pos ⟨rfl, List.length_pos.mpr hne⟩]

/-- Witness for C5: a non-empty table against a text containing no
placeholder makes the restore fatal. -/
theorem C5_zero_restorations_fatal_witness :
    restore_aether_templates "name: upf\n"
      [("AETHER_PLACEHOLDER_0", "\x7b\x7b x \x7d\x7d")] = none :=
  C5_zero_restorations_fatal "name: upf\n"
    [("AETHER_PLACEHOLDER_0", "\x7b\x7b x \x7d\x7d")] (by decide) (by decide)


/-! ## The protected-text decomposition argument -/

theorem marker_eq_cons : marker = 'A' :: "ETHER_PLACEHOLDER_".data := by decide

theorem quote_not_mem_marker : '"' ∉ marker := by decide

theorem lbrace_not_mem_marker : '{' ∉ marker := by decide

theorem rbrace_not_mem_marker : '}' ∉ marker := by decide

theorem marker_ne_nil : marker ≠ [] := by decide

theorem mem_of_getLast? : ∀ (l : List Char) (c : Char), l.getLast? = some c → c ∈ l := by
  intro l
  induction l with
  | nil => intro c h; simp at h
  | cons a t ih =>
    intro c h
    cases t with
    | nil =>
      rw [List.getLast?_singleton] at h
      rw [List.mem_singleton]
      exact (Option.some.inj h).symm
    | cons b t' =>
      rw [List.getLast?_cons_cons] at h
      exact List.mem_cons_of_mem _ (ih c h)

theorem getLast?_append_ne (a b : List Char) (hb : b ≠ []) :
    (a ++ b).getLast? = b.getLast? := by
  rw [List.getLast?_append]
  rcases hl : b.getLast? with _ | c
  · exact absurd (List.getLast?_eq_none_iff.mp hl) hb
  · rfl

theorem qtok_concat (i : Nat) : qtok i = ('"' :: (marker ++ natToDec i)) ++ ['"'] := by
  simp [qtok]

theorem renderSeg_head (sg : Seg) (h : segOK sg) :
    ∃ c rest, renderSeg sg = c :: rest ∧ (c = '"' ∨ c = '{') := by
  cases sg with
  | tok i t => exact ⟨'"', (marker ++ natToDec i) ++ ['"'], rfl, Or.inl rfl⟩
  | tmpl t =>
    obtain ⟨_, body, hbody⟩ := h
    exact ⟨'{', body ++ ['}'], hbody ▸ rfl, Or.inr rfl⟩

theorem renderSeg_last (sg : Seg) (h : segOK sg) :
    ∃ c, (renderSeg sg).getLast? = some c ∧ (c = '"' ∨ c = '}') := by
  cases sg with
  | tok i t =>
    refine ⟨'"', ?_, Or.inl rfl⟩
    show (qtok i).getLast? = some '"'
    rw [qtok_concat, List.getLast?_concat]
  | tmpl t =>
    obtain ⟨_, body, hbody⟩ := h
    refine ⟨'}', ?_, Or.inr rfl⟩
    show t.getLast? = some '}'
    rw [hbody]
    show (('{' :: body) ++ ['}']).getLast? = some '}'
    rw [List.getLast?_concat]

theorem no_shifted_marker (m' w d : List Char) (hm : m' ≠ [])
    (hd : ∀ c ∈ d, c.isDigit = true) : m' ++ (marker ++ w) ≠ marker ++ (d ++ ['"']) := by
  intro heq
  have hlen : m'.length + (19 + w.length) = 19 + (d.length + 1) := by
    have := congrArg List.length heq
    simp only [List.length_append, List.length_singleton] at this
    have hm19 : marker.length = 19 := by decide
    omega
  have hm1 : 1 ≤ m'.length := by
    cases m' with
    | nil => exact absurd rfl hm
    | cons a t => simp
  have hL : (m' ++ (marker ++ w))[m'.length + 18]? = some '_' := by
    rw [List.getElem?_append]
    rw [if_neg (by omega)]
    have h18 : m'.length + 18 - m'.length = 18 := by omega
    rw [h18, List.getElem?_append, if_pos (by decide : (18:Nat) < marker.length)]
    decide
  have hR : (marker ++ (d ++ ['"']))[m'.length + 18]? = (d ++ ['"'])[m'.length - 1]? := by
    rw [List.getElem?_append]
    have hm19 : marker.length = 19 := by decide
    rw [if_neg (by omega)]
    have : m'.length + 18 - marker.length = m'.length - 1 := by omega
    rw [this]
  rw [heq, hR] at hL
  by_cases hdl : m'.length - 1 < d.length
  · rw [List.getElem?_append, if_pos hdl] at hL
    have := List.getElem?_mem hL
    have := hd '_' this
    simp at this
  · rw [List.getElem?_append, if_neg hdl] at hL
    have hidx : m'.length - 1 - d.length = 0 := by omega
    rw [hidx] at hL
    simp at hL

theorem marker_occ : ∀ (L : List (Seg × List Char)) (p0 : List Char),
    CleanL p0 → (∀ sp ∈ L, segOK sp.1 ∧ CleanL sp.2) →
    ∀ x y, glueC p0 L = x ++ marker ++ y →
    ∃ pre i t p post, L = pre ++ (Seg.tok i t, p) :: post ∧
      x = glueC p0 pre ++ ['"'] ∧
      y = natToDec i ++ (['"'] ++ glueC p post) := by
  intro L
  induction L with
  | nil =>
    intro p0 hp0 _ x y hxy
    exact absurd ⟨x, y, hxy.symm⟩ hp0
  | cons sp R ih =>
    intro p0 hp0 hok x y hxy
    obtain ⟨sg, p⟩ := sp
    have hsok : segOK sg := (hok (sg, p) (List.mem_cons_self _ _)).1
    have hpc : CleanL p := (hok (sg, p) (List.mem_cons_self _ _)).2
    have hokR : ∀ sp ∈ R, segOK sp.1 ∧ CleanL sp.2 :=
      fun q hq => hok q (List.mem_cons_of_mem _ hq)
    have hg : p0 ++ (renderSeg sg ++ glueC p R) = x ++ (marker ++ y) := by
      calc p0 ++ (renderSeg sg ++ glueC p R) = glueC p0 ((sg, p) :: R) := by
            simp [glueC, List.append_assoc]
        _ = x ++ marker ++ y := hxy
        _ = x ++ (marker ++ y) := by rw [List.append_assoc]
    rcases List.append_eq_append_iff.mp hg with ⟨m, hx, hTG⟩ | ⟨c', hp0', hmy⟩
    · rcases List.append_eq_append_iff.mp hTG with ⟨u, hmu, hG⟩ | ⟨u, hTu, hmyu⟩
      · obtain ⟨pre, i, tt, pp, post, hR, hxu, hy⟩ := ih p hpc hokR u y (by
          rw [hG, List.append_assoc])
        refine ⟨(sg, p) :: pre, i, tt, pp, post, by rw [hR]; rfl, ?_, hy⟩
        rw [hx, hmu, hxu]
        simp [glueC, List.append_assoc]
      · cases u with
        | nil =>
          simp only [List.nil_append] at hmyu
          obtain ⟨pre, i, tt, pp, post, hR, hx0, hy⟩ := ih p hpc hokR [] y (by
            rw [← hmyu]; simp)
          exact absurd hx0.symm (by simp)
        | cons uc u' =>
          rcases List.append_eq_append_iff.mp hmyu with ⟨w, huw, hyw⟩ | ⟨w, hmw2, hGw⟩
          · cases sg with
            | tmpl t =>
              obtain ⟨hclean, body, hbody⟩ := hsok
              refine absurd ⟨m, w, ?_⟩ hclean
              show m ++ marker ++ w = t
              have : t = m ++ (marker ++ w) := by
                calc t = m ++ (uc :: u') := hTu
                  _ = m ++ (marker ++ w) := by rw [huw]
              rw [this, List.append_assoc]
            | tok i tt =>
              have hT : '"' :: ((marker ++ natToDec i) ++ ['"']) = m ++ (marker ++ w) := by
                calc '"' :: ((marker ++ natToDec i) ++ ['"']) = qtok i := rfl
                  _ = m ++ (uc :: u') := hTu
                  _ = m ++ (marker ++ w) := by rw [huw]
              cases m with
              | nil =>
                rw [List.nil_append, marker_eq_cons] at hT
                have := (List.cons.injEq _ _ _ _).mp hT
                simp at this
              | cons mc m'' =>
                rw [List.cons_append] at hT
                have hT2 := (List.cons.injEq _ _ _ _).mp hT
                have hmc : mc = '"' := hT2.1.symm
                have hT3 : (marker ++ natToDec i) ++ ['"'] = m'' ++ (marker ++ w) := hT2.2
                cases m'' with
                | nil =>
                  rw [List.nil_append] at hT3
                  have hT4 : marker ++ (natToDec i ++ ['"']) = marker ++ w := by
                    rw [← List.append_assoc, hT3]
                  have hw : w = natToDec i ++ ['"'] := (List.append_cancel_left hT4).symm
                  refine ⟨[], i, tt, p, R, rfl, ?_, ?_⟩
                  · show x = p0 ++ ['"']
                    rw [hx, hmc]
                  · rw [hyw, hw, List.append_assoc]
                | cons m2 m3 =>
                  exact absurd hT3.symm
                    (no_shifted_marker (m2 :: m3) w (natToDec i) (by simp)
                      (natToDec_isDigit i))
          · obtain ⟨lc, hlast, hlc⟩ := renderSeg_last sg hsok
            have hul : (uc :: u').getLast? = some lc := by
              have h1 := getLast?_append_ne m (uc :: u') (by simp)
              rw [← hTu, hlast] at h1
              exact h1.symm
            have hmem : lc ∈ marker := by
              have hsub : (uc :: u') <+: marker := ⟨w, hmw2.symm⟩
              exact hsub.sublist.subset (mem_of_getLast? _ _ hul)
            rcases hlc with h | h
            · exact absurd (h ▸ hmem) quote_not_mem_marker
            · exact absurd (h ▸ hmem) rbrace_not_mem_marker
    · cases c' with
      | nil =>
        simp only [List.append_nil] at hp0'
        simp only [List.nil_append] at hmy
        obtain ⟨ch, rest, hrend, hch⟩ := renderSeg_head sg hsok
        have h2 : 'A' :: ("ETHER_PLACEHOLDER_".data ++ y) = ch :: (rest ++ glueC p R) := by
          calc 'A' :: ("ETHER_PLACEHOLDER_".data ++ y) = marker ++ y := by
                rw [marker_eq_cons]; rfl
            _ = renderSeg sg ++ glueC p R := hmy
            _ = ch :: (rest ++ glueC p R) := by rw [hrend]; rfl
        have := ((List.cons.injEq _ _ _ _).mp h2).1
        rcases hch with h | h <;> rw [h] at this <;> simp at this
      | cons cc c'' =>
        rcases List.append_eq_append_iff.mp hmy with ⟨w, hcw, hyw⟩ | ⟨w, hmw, hTGw⟩
        · refine absurd ⟨x, w, ?_⟩ hp0
          show x ++ marker ++ w = p0
          rw [hp0', hcw, List.append_assoc]
        · cases w with
          | nil =>
            simp only [List.append_nil] at hmw
            refine absurd ⟨x, [], ?_⟩ hp0
            show x ++ marker ++ [] = p0
            rw [List.append_nil, hp0', hmw]
          | cons wc w' =>
            have hwm : wc ∈ marker := by
              rw [hmw]
              exact List.mem_append.mpr (Or.inr (List.mem_cons_self _ _))
            obtain ⟨ch, rest, hrend, hch⟩ := renderSeg_head sg hsok
            have h2 : wc :: (w' ++ y) = ch :: (rest ++ glueC p R) := by
              calc wc :: (w' ++ y) = (wc :: w') ++ y := rfl
                _ = renderSeg sg ++ glueC p R := hTGw.symm
                _ = ch :: (rest ++ glueC p R) := by rw [hrend]; rfl
            have hce : wc = ch := ((List.cons.injEq _ _ _ _).mp h2).1
            rcases hch with h | h
            · exact absurd ((hce.trans h) ▸ hwm) quote_not_mem_marker
            · exact absurd ((hce.trans h) ▸ hwm) lbrace_not_mem_marker

/-- Boolean substring containment agrees with the infix relation. -/
theorem subList_iff_occurs (pat : List Char) : ∀ s, subList pat s = true ↔ pat <:+: s := by
  intro s
  induction s with
  | nil =>
    simp only [subList, List.isEmpty_iff]
    constructor
    · intro h; rw [h]
    · intro h
      rcases h with ⟨a, b, hab⟩
      have : a = [] ∧ pat ++ b = [] := by
        cases a with
        | nil => exact ⟨rfl, by simpa using hab⟩
        | cons x xs => simp at hab
      rcases List.append_eq_nil.mp this.2 with ⟨h1, _⟩
      exact h1
  | cons c rest ih =>
    simp only [subList, Bool.or_eq_true, List.isPrefixOf_iff_prefix, ih]
    constructor
    · rintro (h | h)
      · exact h.isInfix
      · exact List.infix_cons h
    · intro h
      rcases List.infix_cons_iff.mp h with h | h
      · exact Or.inl h
      · exact Or.inr h

/-- A digit character is not a quotation mark. -/
theorem digit_ne_quote (c : Char) (h : c.isDigit = true) : c ≠ '"' := by
  intro he
  rw [he] at h
  exact absurd h (by decide)

/-- `str.replace` leaves a text without any occurrence of the (non-empty)
pattern unchanged. -/
theorem pyReplaceF_no_occ : ∀ (f : Nat) (pat repl s : List Char),
    ¬ pat <:+: s → pyReplaceF f pat repl s = s := by
  intro f
  induction f with
  | zero => intro pat repl s _; rfl
  | succ f ih =>
    intro pat repl s hno
    cases s with
    | nil => rfl
    | cons c rest =>
      simp only [pyReplaceF]
      have hc : ¬ (pat ≠ [] ∧ pat.isPrefixOf (c :: rest)) := by
        rintro ⟨-, h2⟩
        exact hno (List.isPrefixOf_iff_prefix.mp h2).isInfix
      rw [if_neg hc]
      exact congrArg (fun l => c :: l) (ih pat repl rest (fun h => hno (List.infix_cons h)))

/-- When the pattern occurs exactly once, `str.replace` substitutes that
single occurrence. -/
theorem pyReplaceF_unique : ∀ (f : Nat) (a pat repl b : List Char),
    pat ≠ [] → (a ++ (pat ++ b)).length < f →
    (∀ x y, a ++ (pat ++ b) = x ++ (pat ++ y) → x = a) →
    pyReplaceF f pat repl (a ++ (pat ++ b)) = a ++ (repl ++ b) := by
  intro f
  induction f with
  | zero => intro a pat repl b _ hlen _; exact absurd hlen (Nat.not_lt_zero _)
  | succ f ih =>
    intro a pat repl b hpat hlen huniq
    cases a with
    | nil =>
      cases hp : pat with
      | nil => exact absurd hp hpat
      | cons pc pr =>
        subst hp
        show pyReplaceF (f + 1) (pc :: pr) repl (pc :: (pr ++ b)) = [] ++ (repl ++ b)
        simp only [pyReplaceF]
        have hcond : ((pc :: pr : List Char) ≠ [] ∧
            (pc :: pr).isPrefixOf (pc :: (pr ++ b))) := by
          refine ⟨by simp, ?_⟩
          rw [List.isPrefixOf_iff_prefix]
          exact ⟨b, rfl⟩
        rw [if_pos hcond]
        have hdrop : List.drop (pc :: pr).length (pc :: (pr ++ b)) = b :=
          List.drop_left (pc :: pr) b
        rw [hdrop]
        have hnob : ¬ (pc :: pr) <:+: b := by
          rintro ⟨u, v, huv⟩
          have h0 : ([] : List Char) ++ ((pc :: pr) ++ b) =
              ((pc :: pr) ++ u) ++ ((pc :: pr) ++ v) := by
            rw [← huv]; simp [List.append_assoc]
          have h2 := huniq ((pc :: pr) ++ u) v h0
          simp at h2
        rw [pyReplaceF_no_occ f _ repl b hnob]
        rfl
    | cons c a' =>
      show pyReplaceF (f + 1) pat repl (c :: (a' ++ (pat ++ b))) = c :: (a' ++ (repl ++ b))
      simp only [pyReplaceF]
      have hcond : ¬ (pat ≠ [] ∧ pat.isPrefixOf (c :: (a' ++ (pat ++ b)))) := by
        rintro ⟨-, h2⟩
        obtain ⟨y0, hy0⟩ := List.isPrefixOf_iff_prefix.mp h2
        have h0 : (c :: a') ++ (pat ++ b) = [] ++ (pat ++ y0) := by
          simp only [List.nil_append]
          rw [hy0]
          rfl
        exact List.noConfusion (huniq [] y0 h0)
      rw [if_neg hcond]
      have hlen' : (a' ++ (pat ++ b)).length < f := by
        simp only [List.cons_append, List.length_cons] at hlen
        omega
      have huniq' : ∀ x y, a' ++ (pat ++ b) = x ++ (pat ++ y) → x = a' := by
        intro x y hxy
        have h0 : (c :: a') ++ (pat ++ b) = (c :: x) ++ (pat ++ y) := by
          simp only [List.cons_append]
          rw [hxy]
        have h2 := huniq (c :: x) y h0
        exact (List.cons.inj h2).2
      rw [ih a' pat repl b hpat hlen' huniq']

/-- Two quote-free prefixes followed by a quote split identically. -/
theorem digits_quote_split : ∀ (a b c d : List Char),
    (∀ ch ∈ a, ch ≠ '"') → (∀ ch ∈ b, ch ≠ '"') →
    a ++ ('"' :: c) = b ++ ('"' :: d) → a = b ∧ c = d := by
  intro a
  induction a with
  | nil =>
    intro b c d _ hb h
    cases b with
    | nil =>
      simp only [List.nil_append] at h
      exact ⟨rfl, (List.cons.inj h).2⟩
    | cons bb b' =>
      simp only [List.nil_append, List.cons_append] at h
      obtain ⟨h1, _⟩ := List.cons.inj h
      exact absurd h1.symm (hb bb (List.mem_cons_self bb b'))
  | cons aa a' ih =>
    intro b c d ha hb h
    cases b with
    | nil =>
      simp only [List.cons_append, List.nil_append] at h
      obtain ⟨h1, _⟩ := List.cons.inj h
      exact absurd h1 (ha aa (List.mem_cons_self aa a'))
    | cons bb b' =>
      simp only [List.cons_append] at h
      obtain ⟨h1, h2⟩ := List.cons.inj h
      obtain ⟨hab, hcd⟩ := ih b' c d
        (fun ch hch => ha ch (List.mem_cons_of_mem _ hch))
        (fun ch hch => hb ch (List.mem_cons_of_mem _ hch)) h2
      exact ⟨by rw [h1, hab], hcd⟩

/-- Splitting a glued chain at one segment. -/
theorem glueC_split : ∀ (pre : List (Seg × List Char)) (p0 : List Char) (sg : Seg)
    (p : List Char) (post : List (Seg × List Char)),
    glueC p0 (pre ++ (sg, p) :: post) = glueC p0 pre ++ (renderSeg sg ++ glueC p post) := by
  intro pre
  induction pre with
  | nil => intro p0 sg p post; simp [glueC, List.append_assoc]
  | cons e pre' ih =>
    intro p0 sg p post
    obtain ⟨s1, p1⟩ := e
    have h0 : glueC p0 (((s1, p1) :: pre') ++ (sg, p) :: post) =
        p0 ++ renderSeg s1 ++ glueC p1 (pre' ++ (sg, p) :: post) := rfl
    rw [h0, ih]
    simp [glueC, List.append_assoc]

/-- The leading piece is a prefix of the glued text. -/
theorem glueC_leading (p0 : List Char) (L : List (Seg × List Char)) : p0 <+: glueC p0 L := by
  cases L with
  | nil => exact List.prefix_refl _
  | cons e r =>
    obtain ⟨s, p⟩ := e
    exact ⟨renderSeg s ++ glueC p r, by simp [glueC, List.append_assoc]⟩

/-- Occurrences of a whole quoted token in a well-formed chain are exactly
the canonical token positions. -/
theorem qtok_occ (L : List (Seg × List Char)) (p0 : List Char)
    (hp0 : CleanL p0) (hok : ∀ sp ∈ L, segOK sp.1 ∧ CleanL sp.2)
    (i : Nat) (x y : List Char) (h : glueC p0 L = x ++ (qtok i ++ y)) :
    ∃ pre t p post, L = pre ++ (Seg.tok i t, p) :: post ∧
      x = glueC p0 pre ∧ y = glueC p post := by
  have h2 : glueC p0 L = (x ++ ['"']) ++ marker ++ (natToDec i ++ (['"'] ++ y)) := by
    rw [h]
    simp [qtok, List.append_assoc]
  obtain ⟨pre, j, t, p, post, hL, hx, hy⟩ := marker_occ L p0 hp0 hok _ _ h2
  have hxp : x = glueC p0 pre := List.append_cancel_right hx
  obtain ⟨hdig, hyy⟩ := digits_quote_split (natToDec i) (natToDec j) y (glueC p post)
    (fun ch hch => digit_ne_quote ch (natToDec_isDigit i ch hch))
    (fun ch hch => digit_ne_quote ch (natToDec_isDigit j ch hch)) hy
  have hij : i = j := natToDec_inj i j hdig
  subst hij
  exact ⟨pre, t, p, post, hL, hxp, hyy⟩

/-- Token indices distribute over chain concatenation. -/
theorem tokIdx_append : ∀ (l1 l2 : List (Seg × List Char)),
    tokIdx (l1 ++ l2) = tokIdx l1 ++ tokIdx l2 := by
  intro l1 l2
  induction l1 with
  | nil => rfl
  | cons e r ih =>
    obtain ⟨s, p⟩ := e
    cases s with
    | tok i t =>
      show i :: tokIdx (r ++ l2) = i :: tokIdx r ++ tokIdx l2
      rw [ih]
      rfl
    | tmpl t =>
      show tokIdx (r ++ l2) = tokIdx r ++ tokIdx l2
      exact ih

/-- Token pairs distribute over chain concatenation. -/
theorem toksOf_append : ∀ (l1 l2 : List (Seg × List Char)),
    toksOf (l1 ++ l2) = toksOf l1 ++ toksOf l2 := by
  intro l1 l2
  induction l1 with
  | nil => rfl
  | cons e r ih =>
    obtain ⟨s, p⟩ := e
    cases s with
    | tok i t =>
      show (i, t) :: toksOf (r ++ l2) = (i, t) :: toksOf r ++ toksOf l2
      rw [ih]
      rfl
    | tmpl t =>
      show toksOf (r ++ l2) = toksOf r ++ toksOf l2
      exact ih

/-- A token pair of a chain yields a splitting of the chain at it. -/
theorem toksOf_extract : ∀ (L : List (Seg × List Char)) (j : Nat) (t : List Char),
    (j, t) ∈ toksOf L → ∃ pre p post, L = pre ++ (Seg.tok j t, p) :: post := by
  intro L
  induction L with
  | nil => intro j t h; exact absurd h (by simp [toksOf])
  | cons e r ih =>
    intro j t h
    obtain ⟨s, p⟩ := e
    cases s with
    | tok i tt =>
      rw [show toksOf ((Seg.tok i tt, p) :: r) = (i, tt) :: toksOf r from rfl] at h
      rcases List.mem_cons.mp h with h1 | h2
      · obtain ⟨h1a, h1b⟩ := Prod.mk.injEq .. ▸ h1
        subst h1a
        subst h1b
        exact ⟨[], p, r, rfl⟩
      · obtain ⟨pre, pp, post, hsplit⟩ := ih j t h2
        exact ⟨(Seg.tok i tt, p) :: pre, pp, post, by rw [hsplit]; rfl⟩
    | tmpl tt =>
      rw [show toksOf ((Seg.tmpl tt, p) :: r) = toksOf r from rfl] at h
      obtain ⟨pre, pp, post, hsplit⟩ := ih j t h
      exact ⟨(Seg.tmpl tt, p) :: pre, pp, post, by rw [hsplit]; rfl⟩

/-- With distinct token indices a chain splits at a given token index in
only one way. -/
theorem tok_split_unique (j : Nat) : ∀ (pre : List (Seg × List Char)) (t p : List Char)
    (post pre' : List (Seg × List Char)) (t' p' : List Char) (post' : List (Seg × List Char)),
    (tokIdx (pre ++ (Seg.tok j t, p) :: post)).Nodup →
    pre ++ (Seg.tok j t, p) :: post = pre' ++ (Seg.tok j t', p') :: post' →
    pre = pre' ∧ t = t' ∧ p = p' ∧ post = post' := by
  intro pre
  induction pre with
  | nil =>
    intro t p post pre' t' p' post' hnd heq
    cases pre' with
    | nil =>
      simp only [List.nil_append] at heq
      obtain ⟨h1, h2⟩ := List.cons.inj heq
      obtain ⟨hs, hp⟩ := Prod.mk.injEq .. ▸ h1
      have ht : t = t' := by
        injection hs
      exact ⟨rfl, ht, hp, h2⟩
    | cons e pre'' =>
      simp only [List.nil_append, List.cons_append] at heq
      obtain ⟨h1, h2⟩ := List.cons.inj heq
      exfalso
      have hmem : j ∈ tokIdx post := by
        rw [h2, tokIdx_append]
        refine List.mem_append.mpr (Or.inr ?_)
        rw [show tokIdx ((Seg.tok j t', p') :: post') = j :: tokIdx post' from rfl]
        exact List.mem_cons_self _ _
      have hnd2 : (j :: tokIdx post).Nodup := by
        rw [show tokIdx (([] : List (Seg × List Char)) ++ (Seg.tok j t, p) :: post) =
          j :: tokIdx post from rfl] at hnd
        exact hnd
      exact (List.nodup_cons.mp hnd2).1 hmem
  | cons e pre1 ih =>
    intro t p post pre' t' p' post' hnd heq
    cases pre' with
    | nil =>
      simp only [List.cons_append, List.nil_append] at heq
      obtain ⟨h1, h2⟩ := List.cons.inj heq
      exfalso
      subst h1
      have hmem : j ∈ tokIdx (pre1 ++ (Seg.tok j t, p) :: post) := by
        rw [tokIdx_append]
        refine List.mem_append.mpr (Or.inr ?_)
        rw [show tokIdx ((Seg.tok j t, p) :: post) = j :: tokIdx post from rfl]
        exact List.mem_cons_self _ _
      have hnd2 : (j :: tokIdx (pre1 ++ (Seg.tok j t, p) :: post)).Nodup := by
        rw [show tokIdx (((Seg.tok j t', p') :: pre1) ++ (Seg.tok j t, p) :: post) =
          j :: tokIdx (pre1 ++ (Seg.tok j t, p) :: post) from rfl] at hnd
        exact hnd
      exact (List.nodup_cons.mp hnd2).1 hmem
    | cons e' pre2 =>
      simp only [List.cons_append] at heq
      obtain ⟨h1, h2⟩ := List.cons.inj heq
      have hnd' : (tokIdx (pre1 ++ (Seg.tok j t, p) :: post)).Nodup := by
        obtain ⟨s0, p0⟩ := e
        cases s0 with
        | tok i0 t0 =>
          rw [show tokIdx (((Seg.tok i0 t0, p0) :: pre1) ++ (Seg.tok j t, p) :: post) =
            i0 :: tokIdx (pre1 ++ (Seg.tok j t, p) :: post) from rfl] at hnd
          exact (List.nodup_cons.mp hnd).2
        | tmpl t0 =>
          rw [show tokIdx (((Seg.tmpl t0, p0) :: pre1) ++ (Seg.tok j t, p) :: post) =
            tokIdx (pre1 ++ (Seg.tok j t, p) :: post) from rfl] at hnd
          exact hnd
      obtain ⟨hpre, ht, hp, hpost⟩ := ih t p post pre2 t' p' post' hnd' h2
      exact ⟨by rw [h1, hpre], ht, hp, hpost⟩

/-- Replacing a quoted token in a well-formed chain with distinct token
indices substitutes exactly the canonical occurrence. -/
theorem pyReplace_chain (p0 : List Char) (L pre : List (Seg × List Char))
    (j : Nat) (t p : List Char) (post : List (Seg × List Char)) (repl : List Char)
    (hp0 : CleanL p0) (hok : ∀ sp ∈ L, segOK sp.1 ∧ CleanL sp.2)
    (hnd : (tokIdx L).Nodup)
    (hL : L = pre ++ (Seg.tok j t, p) :: post) :
    pyReplace (qtok j) repl (glueC p0 L) =
      glueC p0 pre ++ (repl ++ glueC p post) := by
  have hglue : glueC p0 L = glueC p0 pre ++ (qtok j ++ glueC p post) := by
    rw [hL, glueC_split]
    rfl
  have huniq : ∀ x y, glueC p0 pre ++ (qtok j ++ glueC p post) = x ++ (qtok j ++ y) →
      x = glueC p0 pre := by
    intro x y hxy
    obtain ⟨pre', t', p', post', hsplit, hx, hy2⟩ :=
      qtok_occ L p0 hp0 hok j x y (by rw [hglue]; exact hxy)
    have hu := tok_split_unique j pre t p post pre' t' p' post'
      (by rw [← hL]; exact hnd) (hL.symm.trans hsplit)
    rw [hx, hu.1]
  rw [hglue]
  exact pyReplaceF_unique _ (glueC p0 pre) (qtok j) repl (glueC p post)
    (by simp [qtok]) (Nat.lt_succ_self _) huniq

/-- A chain without tokens is already fully restored. -/
theorem toksOf_nil_toTmpl : ∀ (L : List (Seg × List Char)),
    toksOf L = [] → toTmpl L = L := by
  intro L
  induction L with
  | nil => intro _; rfl
  | cons e r ih =>
    intro h
    obtain ⟨s, p⟩ := e
    cases s with
    | tok i t =>
      rw [show toksOf ((Seg.tok i t, p) :: r) = (i, t) :: toksOf r from rfl] at h
      exact absurd h (by simp)
    | tmpl t =>
      rw [show toksOf ((Seg.tmpl t, p) :: r) = toksOf r from rfl] at h
      show (Seg.tmpl t, p) :: toTmpl r = (Seg.tmpl t, p) :: r
      rw [ih h]

/-- The restoration loop over a table matching the tokens of a well-formed
chain (in any order) restores every token to its template and counts one
restoration per entry. -/
theorem restore_fold : ∀ (todo : List (String × String)) (jts : List (Nat × List Char))
    (p0 : List Char) (L : List (Seg × List Char)) (n : Nat),
    todo = jts.map (fun jt => (phNameStr jt.1, String.mk jt.2)) →
    CleanL p0 → (∀ sp ∈ L, segOK sp.1 ∧ CleanL sp.2) →
    (tokIdx L).Nodup →
    (toksOf L).Perm jts →
    todo.foldl restoreStep (glueC p0 L, n) = (glueC p0 (toTmpl L), n + todo.length) := by
  intro todo
  induction todo with
  | nil =>
    intro jts p0 L n htodo hp0 hok hnd hperm
    have hjts : jts = [] := by
      cases jts with
      | nil => rfl
      | cons a b => simp at htodo
    subst hjts
    rw [toksOf_nil_toTmpl L hperm.eq_nil]
    rfl
  | cons e todo' ih =>
    intro jts p0 L n htodo hp0 hok hnd hperm
    cases jts with
    | nil => simp at htodo
    | cons jt jts' =>
      simp only [List.map_cons] at htodo
      obtain ⟨he, htodo'⟩ := List.cons.inj htodo
      have hmem : jt ∈ toksOf L := hperm.mem_iff.mpr (List.mem_cons_self _ _)
      obtain ⟨pre, p, post, hL⟩ := toksOf_extract L jt.1 jt.2 hmem
      have hglue : glueC p0 L = glueC p0 pre ++ (qtok jt.1 ++ glueC p post) := by
        rw [hL, glueC_split]
        rfl
      have hsub : subList (qtok jt.1) (glueC p0 L) = true := by
        rw [subList_iff_occurs, hglue]
        exact ⟨glueC p0 pre, glueC p post, by simp [List.append_assoc]⟩
      have hstep : restoreStep (glueC p0 L, n) e =
          (glueC p0 (pre ++ (Seg.tmpl jt.2, p) :: post), n + 1) := by
        rw [he]
        simp only [restoreStep]
        rw [show ('"' :: ((phNameStr jt.1).data ++ ['"'])) = qtok jt.1 from rfl]
        rw [if_pos hsub]
        rw [pyReplace_chain p0 L pre jt.1 jt.2 p post jt.2 hp0 hok hnd hL]
        rw [glueC_split]
        rfl
      rw [List.foldl_cons, hstep]
      have hokL' : ∀ sp ∈ pre ++ (Seg.tmpl jt.2, p) :: post, segOK sp.1 ∧ CleanL sp.2 := by
        intro sp hsp
        rcases List.mem_append.mp hsp with h1 | h1
        · exact hok sp (by rw [hL]; exact List.mem_append.mpr (Or.inl h1))
        · rcases List.mem_cons.mp h1 with h2 | h2
          · subst h2
            exact hok (Seg.tok jt.1 jt.2, p)
              (by rw [hL]; exact List.mem_append.mpr (Or.inr (List.mem_cons_self _ _)))
          · exact hok sp
              (by rw [hL]; exact List.mem_append.mpr (Or.inr (List.mem_cons_of_mem _ h2)))
      have hndL' : (tokIdx (pre ++ (Seg.tmpl jt.2, p) :: post)).Nodup := by
        rw [tokIdx_append]
        rw [show tokIdx ((Seg.tmpl jt.2, p) :: post) = tokIdx post from rfl]
        have h1 : tokIdx L = tokIdx pre ++ (jt.1 :: tokIdx post) := by
          rw [hL, tokIdx_append]
          rfl
        rw [h1] at hnd
        have h2 := (List.perm_middle.nodup_iff).mp hnd
        exact (List.nodup_cons.mp h2).2
      have hpermL' : (toksOf (pre ++ (Seg.tmpl jt.2, p) :: post)).Perm jts' := by
        rw [toksOf_append]
        rw [show toksOf ((Seg.tmpl jt.2, p) :: post) = toksOf post from rfl]
        have h1 : toksOf L = toksOf pre ++ (jt :: toksOf post) := by
          rw [hL, toksOf_append]
          rfl
        rw [h1] at hperm
        have h2 : (jt :: (toksOf pre ++ toksOf post)).Perm (jt :: jts') :=
          List.Perm.trans List.perm_middle.symm hperm
        exact h2.cons_inv
      rw [ih jts' p0 (pre ++ (Seg.tmpl jt.2, p) :: post) (n + 1) htodo' hp0 hokL' hndL' hpermL']
      have htt : toTmpl (pre ++ (Seg.tmpl jt.2, p) :: post) = toTmpl L := by
        rw [hL]
        simp [toTmpl]
      rw [htt]
      rw [show (e :: todo').length = todo'.length + 1 from rfl]
      rw [Nat.add_assoc, Nat.add_comm 1 todo'.length]

/-- The empty text is clean. -/
theorem cleanL_nil : CleanL [] := by
  intro hm
  exact marker_ne_nil (List.infix_nil.mp hm)

/-- Cleanliness transfers to any infix of a clean text. -/
theorem cleanL_of_infix (s l : List Char) (h : CleanL s) (hinf : l <:+: s) : CleanL l :=
  fun hm => h (hm.trans hinf)

/-- Prepending one character to the leading piece prepends it to the glued
text. -/
theorem glueC_cons_piece (c : Char) (p0 : List Char) (L : List (Seg × List Char)) :
    glueC (c :: p0) L = c :: glueC p0 L := by
  cases L with
  | nil => rfl
  | cons e r =>
    obtain ⟨s, p⟩ := e
    simp [glueC]

/-- Structure of the protection scanner on clean input: the protected text
is a chain of clean pieces and quoted tokens with consecutive indices, the
original text is the same chain with the templates in place, and the table
lists exactly the chain's placeholder/template pairs in order. -/
theorem protect_struct : ∀ (f : Nat) (s : List Char) (i : Nat), s.length < f → CleanL s →
    ∃ (p0 : List Char) (items : List (Nat × List Char × List Char)),
      (protectAux f s i).1 =
        glueC p0 (items.map (fun it => (Seg.tok it.1 it.2.1, it.2.2))) ∧
      s = glueC p0 (items.map (fun it => (Seg.tmpl it.2.1, it.2.2))) ∧
      (protectAux f s i).2 = items.map (fun it => (phNameStr it.1, String.mk it.2.1)) ∧
      items.map (fun it => it.1) = List.range' i items.length ∧
      CleanL p0 ∧
      (∀ it ∈ items, CleanL it.2.2 ∧ CleanL it.2.1 ∧
        ∃ body, it.2.1 = '{' :: (body ++ ['}'])) := by
  intro f
  induction f with
  | zero => intro s i h _; exact absurd h (Nat.not_lt_zero _)
  | succ f ih =>
    intro s i hlen hclean
    simp only [protectAux]
    split
    · exact ⟨[], [], rfl, rfl, rfl, rfl, cleanL_nil, by simp⟩
    · next rest =>
      split
      next b bs rest2 htw hdw =>
        have hsub := (List.dropWhile_sublist (l := rest) notBrace).length_le
        rw [hdw] at hsub
        simp only [List.length_cons] at hsub hlen
        have hrest : rest = (b :: bs) ++ ('}' :: '}' :: rest2) := by
          rw [← htw, ← hdw]
          exact (List.takeWhile_append_dropWhile ..).symm
        have hstmpl : ('{' :: '{' :: rest : List Char) =
            ('{' :: '{' :: ((b :: bs) ++ ['}', '}'])) ++ rest2 := by
          rw [hrest]
          simp [List.append_assoc]
        have hclean2 : CleanL rest2 :=
          cleanL_of_infix _ _ hclean ⟨'{' :: '{' :: ((b :: bs) ++ ['}', '}']), [],
            by rw [hstmpl]; simp⟩
        obtain ⟨p0', items', h1, h2, h3, h4, h5, h6⟩ := ih rest2 (i + 1) (by omega) hclean2
        refine ⟨[], (i, '{' :: '{' :: ((b :: bs) ++ ['}', '}']), p0') :: items',
          ?_, ?_, ?_, ?_, cleanL_nil, ?_⟩
        · simp only [List.map_cons, glueC, renderSeg, qtok, phNameStr, List.nil_append]
          rw [h1]
          simp [List.append_assoc]
        · simp only [List.map_cons, glueC, renderSeg, List.nil_append]
          rw [← h2, hstmpl]
        · simp only [List.map_cons]
          rw [h3]
        · simp only [List.map_cons, List.length_cons]
          rw [h4, List.range'_succ]
        · intro it hit
          rcases List.mem_cons.mp hit with h7 | h7
          · subst h7
            refine ⟨h5, cleanL_of_infix _ _ hclean ⟨[], rest2, by rw [hstmpl]; simp⟩, ?_⟩
            exact ⟨'{' :: ((b :: bs) ++ ['}']), by simp⟩
          · exact h6 it h7
      next hno =>
        simp only [List.length_cons] at hlen
        have hclean2 : CleanL ('{' :: rest) :=
          cleanL_of_infix _ _ hclean ⟨['{'], [], by simp⟩
        obtain ⟨p0', items', h1, h2, h3, h4, h5, h6⟩ := ih ('{' :: rest) i
          (by simp only [List.length_cons]; omega) hclean2
        have hs2 : ('{' :: '{' :: rest : List Char) =
            glueC ('{' :: p0') (items'.map (fun it => (Seg.tmpl it.2.1, it.2.2))) := by
          rw [glueC_cons_piece, ← h2]
        refine ⟨'{' :: p0', items', ?_, hs2, h3, h4, ?_, h6⟩
        · rw [glueC_cons_piece, ← h1]
        · exact cleanL_of_infix _ _ hclean
            ((glueC_leading ('{' :: p0') _).isInfix.trans (by rw [← hs2]))
    · next c rest hno =>
      simp only [List.length_cons] at hlen
      have hclean2 : CleanL rest :=
        cleanL_of_infix _ _ hclean ⟨[c], [], by simp⟩
      obtain ⟨p0', items', h1, h2, h3, h4, h5, h6⟩ := ih rest i (by omega) hclean2
      have hs2 : (c :: rest : List Char) =
          glueC (c :: p0') (items'.map (fun it => (Seg.tmpl it.2.1, it.2.2))) := by
        rw [glueC_cons_piece, ← h2]
      refine ⟨c :: p0', items', ?_, hs2, h3, h4, ?_, h6⟩
      · rw [glueC_cons_piece, ← h1]
      · exact cleanL_of_infix _ _ hclean
          ((glueC_leading (c :: p0') _).isInfix.trans (by rw [← hs2]))

/-- The placeholder table has exactly one entry per template match. -/
theorem protect_length : ∀ (f : Nat) (s : List Char) (i : Nat),
    (protectAux f s i).2.length = countTplAux f s := by
  intro f
  induction f with
  | zero => intro s i; rfl
  | succ f ih =>
    intro s i
    simp only [protectAux, countTplAux]
    split
    · rfl
    · next rest =>
      split
      next b bs rest2 htw hdw =>
        simp only [List.length_cons, ih]
      next hno =>
        exact ih ('{' :: rest) i
    · next c rest hno =>
      exact ih rest i

/-- A text without any template match is protected to itself with an empty
table. -/
theorem protectAux_count_zero : ∀ (f : Nat) (s : List Char) (i : Nat),
    countTplAux f s = 0 → protectAux f s i = (s, []) := by
  intro f
  induction f with
  | zero => intro s i _; rfl
  | succ f ih =>
    intro s i hc
    simp only [countTplAux] at hc
    split at hc
    · rfl
    · next rest =>
      split at hc
      next b bs rest2 htw hdw =>
        omega
      next hno =>
        simp only [protectAux]
        rw [ih ('{' :: rest) i hc]
    · next c rest hno =>
      simp only [protectAux]
      rw [ih rest i hc]

/-- A permutation of a mapped list is itself the image of a permutation of
the original list. -/
theorem perm_map_extract {α β : Type} [DecidableEq α] (f : α → β) :
    ∀ (l' : List β) (l : List α), l'.Perm (l.map f) →
    ∃ idx : List α, idx.Perm l ∧ l' = idx.map f := by
  intro l'
  induction l' with
  | nil =>
    intro l hp
    have hl : l = [] := List.map_eq_nil_iff.mp hp.symm.eq_nil
    exact ⟨[], by rw [hl], rfl⟩
  | cons b l'' ih =>
    intro l hp
    have hbmem : b ∈ l.map f := hp.mem_iff.mp (List.mem_cons_self _ _)
    obtain ⟨a, hal, hfa⟩ := List.mem_map.mp hbmem
    have hperm2 : (l.map f).Perm (f a :: (l.erase a).map f) := by
      have h2 := (List.perm_cons_erase hal).map f
      simpa using h2
    have h3 : (b :: l'').Perm (f a :: (l.erase a).map f) := hp.trans hperm2
    rw [hfa] at h3
    have h4 : l''.Perm ((l.erase a).map f) := h3.cons_inv
    obtain ⟨idx', hq, heq⟩ := ih (l.erase a) h4
    refine ⟨a :: idx', ?_, ?_⟩
    · exact (hq.cons a).trans (List.perm_cons_erase hal).symm
    · simp [heq, hfa]

/-- Token indices of an all-token chain. -/
theorem tokIdx_map_tok (items : List (Nat × List Char × List Char)) :
    tokIdx (items.map (fun it => (Seg.tok it.1 it.2.1, it.2.2))) =
      items.map (fun it => it.1) := by
  induction items with
  | nil => rfl
  | cons it r ih =>
    show it.1 :: tokIdx (r.map _) = it.1 :: r.map _
    rw [ih]

/-- Token pairs of an all-token chain. -/
theorem toksOf_map_tok (items : List (Nat × List Char × List Char)) :
    toksOf (items.map (fun it => (Seg.tok it.1 it.2.1, it.2.2))) =
      items.map (fun it => (it.1, it.2.1)) := by
  induction items with
  | nil => rfl
  | cons it r ih =>
    show (it.1, it.2.1) :: toksOf (r.map _) = (it.1, it.2.1) :: r.map _
    rw [ih]

/-- Restoring an all-token chain yields the corresponding template chain. -/
theorem toTmpl_map_tok (items : List (Nat × List Char × List Char)) :
    toTmpl (items.map (fun it => (Seg.tok it.1 it.2.1, it.2.2))) =
      items.map (fun it => (Seg.tmpl it.2.1, it.2.2)) := by
  induction items with
  | nil => rfl
  | cons it r ih =>
    show (Seg.tmpl it.2.1, it.2.2) :: toTmpl (r.map _) = (Seg.tmpl it.2.1, it.2.2) :: r.map _
    rw [ih]

/-- The placeholder table factors through the index/template pairs. -/
theorem table_eq_jts_map (items : List (Nat × List Char × List Char)) :
    items.map (fun it => (phNameStr it.1, String.mk it.2.1)) =
      (items.map (fun it => (it.1, it.2.1))).map
        (fun jt => (phNameStr jt.1, String.mk jt.2)) := by
  rw [List.map_map]
  rfl

/-- C1 (amended): for every text in which the placeholder marker
`AETHER_PLACEHOLDER_` does not occur, protecting and then restoring with
the returned table reproduces the original text exactly, and the table has
exactly one entry per `\x7b\x7b...\x7d\x7d` template expression.  The
marker-freedom hypothesis is necessary: see the counterexample. -/
theorem C1_roundtrip (content : String)
    (hclean : subList marker content.data = false) :
    (replace_aether_templates_with_placeholders content).2.length = countTemplates content ∧
    restore_aether_templates (replace_aether_templates_with_placeholders content).1
      (replace_aether_templates_with_placeholders content).2 = some content := by
  have hcl : CleanL content.data := by
    intro hinf
    rw [← subList_iff_occurs, hclean] at hinf
    exact Bool.noConfusion hinf
  constructor
  · exact protect_length (content.data.length + 1) content.data 0
  · obtain ⟨p0, items, h1, h2, h3, h4, h5, h6⟩ :=
      protect_struct (content.data.length + 1) content.data 0 (Nat.lt_succ_self _) hcl
    have hokL : ∀ sp ∈ items.map (fun it => (Seg.tok it.1 it.2.1, it.2.2)),
        segOK sp.1 ∧ CleanL sp.2 := by
      intro sp hsp
      obtain ⟨it, hit, hsp2⟩ := List.mem_map.mp hsp
      obtain ⟨hpc, htc, hshape⟩ := h6 it hit
      rw [← hsp2]
      exact ⟨⟨htc, hshape⟩, hpc⟩
    have hndL : (tokIdx (items.map (fun it => (Seg.tok it.1 it.2.1, it.2.2)))).Nodup := by
      rw [tokIdx_map_tok, h4]
      exact List.nodup_range' 0 items.length
    have hperm0 : (sortByLenDesc
        ((protectAux (content.data.length + 1) content.data 0).2)).Perm
        ((items.map (fun it => (it.1, it.2.1))).map
          (fun jt => (phNameStr jt.1, String.mk jt.2))) := by
      have hh := perm_sortByLenDesc ((protectAux (content.data.length + 1) content.data 0).2)
      nth_rewrite 2 [h3] at hh
      rw [table_eq_jts_map] at hh
      exact hh
    obtain ⟨jts, hjp, hje⟩ := perm_map_extract _ _ _ hperm0
    have hpermL : (toksOf (items.map (fun it => (Seg.tok it.1 it.2.1, it.2.2)))).Perm jts := by
      rw [toksOf_map_tok]
      exact hjp.symm
    have hfold := restore_fold
      (sortByLenDesc ((protectAux (content.data.length + 1) content.data 0).2)) jts p0
      (items.map (fun it => (Seg.tok it.1 it.2.1, it.2.2))) 0 hje h5 hokL hndL hpermL
    show restore_aether_templates
      (String.mk (protectAux (content.data.length + 1) content.data 0).1)
      ((protectAux (content.data.length + 1) content.data 0).2) = some content
    simp only [restore_aether_templates]
    rw [h1]
    rw [hfold]
    rw [toTmpl_map_tok, ← h2]
    have hlen2 : (sortByLenDesc
        ((protectAux (content.data.length + 1) content.data 0).2)).length = items.length := by
      rw [(perm_sortByLenDesc _).length_eq, h3, List.length_map]
    have hlen3 : ((protectAux (content.data.length + 1) content.data 0).2).length =
        items.length := by
      rw [h3, List.length_map]
    rw [hlen2, hlen3]
    rw [if_neg (by omega)]

/-- C1 counterexample to the unamended claim: the text
`"AETHER_PLACEHOLDER_0"\x7b\x7ba\x7d\x7d` contains one template
expression, but the restore step replaces both the synthesized placeholder
and the literal marker text already present, so the round trip does not
reproduce the original text. -/
theorem C1_roundtrip_counterexample :
    ¬ ((replace_aether_templates_with_placeholders
          "\"AETHER_PLACEHOLDER_0\"\x7b\x7ba\x7d\x7d").2.length =
        countTemplates "\"AETHER_PLACEHOLDER_0\"\x7b\x7ba\x7d\x7d" ∧
      restore_aether_templates
        (replace_aether_templates_with_placeholders
          "\"AETHER_PLACEHOLDER_0\"\x7b\x7ba\x7d\x7d").1
        (replace_aether_templates_with_placeholders
          "\"AETHER_PLACEHOLDER_0\"\x7b\x7ba\x7d\x7d").2 =
        some "\"AETHER_PLACEHOLDER_0\"\x7b\x7ba\x7d\x7d") := by
  decide

/-- C1 witness: the round trip at the concrete text `x: \x7b\x7bval\x7d\x7d`. -/
theorem C1_roundtrip_witness :
    subList marker "x: \x7b\x7bval\x7d\x7d".data = false ∧
    ((replace_aether_templates_with_placeholders "x: \x7b\x7bval\x7d\x7d").2.length =
        countTemplates "x: \x7b\x7bval\x7d\x7d" ∧
      restore_aether_templates
        (replace_aether_templates_with_placeholders "x: \x7b\x7bval\x7d\x7d").1
        (replace_aether_templates_with_placeholders "x: \x7b\x7bval\x7d\x7d").2 =
        some "x: \x7b\x7bval\x7d\x7d") :=
  ⟨by decide, C1_roundtrip "x: \x7b\x7bval\x7d\x7d" (by decide)⟩

/-- C10: restoring with an empty placeholder table succeeds and returns
the text unchanged (the fatal zero-restorations exit is not taken), and
protecting a text without template expressions yields the text unchanged
with an empty table, making the subsequent restore the identity. -/
theorem C10_empty_table_identity (content : String) :
    restore_aether_templates content [] = some content ∧
    (countTemplates content = 0 →
      replace_aether_templates_with_placeholders content = (content, []) ∧
      restore_aether_templates (replace_aether_templates_with_placeholders content).1
        (replace_aether_templates_with_placeholders content).2 = some content) := by
  constructor
  · rfl
  · intro h0
    have hp : protectAux (content.data.length + 1) content.data 0 = (content.data, []) :=
      protectAux_count_zero _ _ 0 h0
    constructor
    · show (String.mk (protectAux (content.data.length + 1) content.data 0).1,
        (protectAux (content.data.length + 1) content.data 0).2) = (content, [])
      rw [hp]
    · show restore_aether_templates
        (String.mk (protectAux (content.data.length + 1) content.data 0).1)
        ((protectAux (content.data.length + 1) content.data 0).2) = some content
      rw [hp]
      rfl

/-- C10 witness at the concrete text `hello`. -/
theorem C10_empty_table_identity_witness :
    restore_aether_templates "hello" [] = some "hello" ∧
    (replace_aether_templates_with_placeholders "hello" = ("hello", []) ∧
      restore_aether_templates (replace_aether_templates_with_placeholders "hello").1
        (replace_aether_templates_with_placeholders "hello").2 = some "hello") :=
  ⟨(C10_empty_table_identity "hello").1, (C10_empty_table_identity "hello").2 (by decide)⟩
